import Mathlib

/-!
Verification of the "structural transformation" core of the morsels repository:
`format_ranges`, `parse_ranges`, `add` and `deep_flatten`.

Python strings are modelled as `List Char`; Python `int` values as `Int`
(arbitrary precision in both worlds).  Python generators are modelled by the
list of values they yield together with a flag recording whether iteration
ended in an exception.  The builtin helpers used by the source
(`str.split`, `str.join`, `int(...)`, `str(...)`) are modelled explicitly,
restricted to the character data the program manipulates (decimal digits,
an optional sign; the whitespace/underscore tolerance of Python's `int` is
not exercised by any input considered here).
-/

namespace Morsels

/-- Python `text.split(sep)` for a one-character separator: splits on every
occurrence of the separator and keeps empty fragments, so that splitting the
empty string gives `[[]]` (Python: `''.split(',') == ['']`). -/
def pySplit (sep : Char) (s : List Char) : List (List Char) :=
  s.foldr
    (fun c acc =>
      match acc with
      | cur :: rest => if c = sep then [] :: cur :: rest else (c :: cur) :: rest
      | [] => [])
    [[]]

/-- Python `sep.join(parts)` for a one-character separator. -/
def pyJoin (sep : Char) : List (List Char) → List Char
  | [] => []
  | p :: rest => p ++ (rest.flatMap fun q => sep :: q)

/-- Decimal digit test (characters `'0'`–`'9'`). -/
def isDigitCh (c : Char) : Bool := 48 ≤ c.toNat && c.toNat ≤ 57

/-- The decimal digit character for a value `0`–`9` (values `≥ 9` clamp to
`'9'`; they never arise). -/
def digitChar : Nat → Char
  | 0 => '0' | 1 => '1' | 2 => '2' | 3 => '3' | 4 => '4'
  | 5 => '5' | 6 => '6' | 7 => '7' | 8 => '8' | _ => '9'

/-- Decimal rendering, structurally recursive on a fuel argument so that it
evaluates by kernel reduction; `natToChars` instantiates the fuel
sufficiently (`natToChars_unfold` recovers the natural recursion). -/
def natToCharsAux : Nat → Nat → List Char
  | 0, _ => []
  | fuel + 1, n =>
      if n < 10 then [digitChar n]
      else natToCharsAux fuel (n / 10) ++ [digitChar (n % 10)]

/-- Decimal rendering of a natural number, most significant digit first;
models Python `str(n)` for `n ≥ 0`. -/
def natToChars (n : Nat) : List Char := natToCharsAux (n + 1) n

/-- Python `str(i)` for an integer. -/
def intToChars (i : Int) : List Char :=
  if i < 0 then '-' :: natToChars (-i).toNat else natToChars i.toNat

/-- Accumulating decimal reader: consumes digit characters, failing on the
first non-digit. -/
def parseDigitsAux (acc : Nat) : List Char → Option Nat
  | [] => some acc
  | c :: rest =>
      if isDigitCh c then parseDigitsAux (10 * acc + (c.toNat - 48)) rest
      else none

/-- Reads a non-empty all-digit string as a natural number. -/
def parseDigits : List Char → Option Nat
  | [] => none
  | l => parseDigitsAux 0 l

/-- Python `int(s)`: optional single leading sign followed by one or more
decimal digits; `none` models the `ValueError` raised on anything else. -/
def pyInt (s : List Char) : Option Int :=
  match s with
  | [] => none
  | c :: rest =>
      if c = '-' then (parseDigits rest).map (fun n => -(n : Int))
      else if c = '+' then (parseDigits rest).map (fun n => (n : Int))
      else (parseDigits (c :: rest)).map (fun n => (n : Int))

/-! ## `parse_ranges` (src/parse_ranges/parse_ranges.py)

The Python function is a generator; we model an invocation that is consumed
to exhaustion by the pair (list of yielded integers, whether a `ValueError`
— the spec's `FormatError` — was raised).  Values yielded before the error
are retained, matching lazy generator semantics. -/

/-- Python `range(a, b + 1)` as a list. -/
def rangeList (a b : Int) : List Int :=
  (List.range (b + 1 - a).toNat).map (fun i : Nat => a + (i : Int))

/-- The literal `'>exit'` the source compares the right part against. -/
def exitChars : List Char := ['>', 'e', 'x', 'i', 't']

/-- One token of the comma-separated input, processed exactly as the loop
body of `parse_ranges` does: split on `'-'`; a two-part split is a range
(or the `'>exit'` special form), anything else is re-parsed as a single
integer.  `Except.error` models an uncaught `ValueError`. -/
def parseToken (tok : List Char) : Except Unit (List Int) :=
  match pySplit '-' tok with
  | [a, b] =>
      if b = exitChars then
        match pyInt a with
        | some n => Except.ok [n]
        | none => Except.error ()
      else
        match pyInt a, pyInt b with
        | some x, some y => Except.ok (rangeList x y)
        | _, _ => Except.error ()
  | _ =>
      match pyInt tok with
      | some n => Except.ok [n]
      | none => Except.error ()

/-- The values a token contributes when it parses successfully. -/
def tokenYield (t : List Char) : List Int :=
  match parseToken t with
  | Except.ok xs => xs
  | Except.error _ => []

/-- Driver of the generator: tokens are processed in input order; the first
failing token aborts with the values yielded so far. -/
def parse_ranges_toks : List (List Char) → List Int → List Int × Bool
  | [], acc => (acc, false)
  | t :: ts, acc =>
      match parseToken t with
      | Except.ok xs => parse_ranges_toks ts (acc ++ xs)
      | Except.error _ => (acc, true)

/-- `parse_ranges(input_string)`, consumed to exhaustion. -/
def parse_ranges (input_string : List Char) : List Int × Bool :=
  parse_ranges_toks (pySplit ',' input_string) []

/-! ## Spec-side token description (for the range-string grammar)

`SpecTok` renders the grammar `token := INTEGER | INTEGER '-' INTEGER` of the
spec's §6; `expandTok` is the expansion the spec's §4.2 prescribes for a
well-formed token. -/

/-- A well-formed token of a range string, as the spec's grammar describes
it: a bare integer or an `a-b` pair. -/
inductive SpecTok where
  | single : Int → SpecTok
  | pair : Int → Int → SpecTok
deriving DecidableEq

/-- The text of a token. -/
def renderTok : SpecTok → List Char
  | SpecTok.single n => intToChars n
  | SpecTok.pair a b => intToChars a ++ '-' :: intToChars b

/-- Modelled from the spec: the integers a well-formed token denotes — a
bare integer denotes itself, `a-b` denotes every integer from `a` to `b`
inclusive, ascending. -/
def expandTok : SpecTok → List Int
  | SpecTok.single n => [n]
  | SpecTok.pair a b => rangeList a b

/-- Well-formedness of a token: non-negative integers, and `a ≤ b` for a
pair (the spec's `INTEGER` is unsigned: `^\d+(-\d+)?$`). -/
def wfTok : SpecTok → Bool
  | SpecTok.single n => decide (0 ≤ n)
  | SpecTok.pair a b => decide (0 ≤ a) && decide (a ≤ b)

/-! ## `format_ranges` (src/format_ranges/format_ranges.py)

The Python function keeps a `Counter` of the not-yet-emitted values.  A
`Counter` built from a sorted list, updated only by `subtract` (which
appends previously-missing keys with negative counts) and `+ Counter()`
(which drops non-positive entries and keeps insertion order), is modelled
by an association list of `(key, count)` pairs in insertion order. -/

/-- `Counter(sorted_list)`: multiplicities keyed in first-occurrence
(here: ascending) order. -/
def toCounter : List Int → List (Int × Int)
  | [] => []
  | x :: xs =>
      match toCounter xs with
      | [] => [(x, 1)]
      | (k, n) :: rest => if k = x then (x, n + 1) :: rest else (x, 1) :: (k, n) :: rest

/-- `c += Counter()`: drop non-positive entries, keeping order. -/
def keepPositive (c : List (Int × Int)) : List (Int × Int) :=
  c.filter (fun p => 0 < p.2)

/-- `c.subtract({k: 1 for k in range(s, j + 1)})`: decrement every existing
key in the interval; keys of the subtrahend absent from `c` are appended
with count `-1` (as `Counter.subtract` does). -/
def counterSubtract (c : List (Int × Int)) (s j : Int) : List (Int × Int) :=
  (c.map (fun p => if s ≤ p.1 ∧ p.1 ≤ j then (p.1, p.2 - 1) else p)) ++
    (((rangeList s j).filter (fun k => c.all (fun p => p.1 ≠ k))).map
      (fun k => (k, -1)))

/-- The body of `for item, count in c.items()`: `start`/`it` are `None`able
(Python: `if not start` is taken when `start` is `None` *or* `0`). -/
def passFold (acc : Option Int × Option Int) (item : Int) :
    Option Int × Option Int :=
  if acc.1 = none ∨ acc.1 = some 0 then (some item, some item)
  else
    match acc.2 with
    | some j => if item = j + 1 then (acc.1, some item) else acc
    | none => acc    -- unreachable: a truthy `start` is always set with `it`

/-- Total multiplicity stored in the counter; the `while c` loop removes at
least one unit per pass, so this bounds the number of passes. -/
def totalCount (c : List (Int × Int)) : Nat :=
  (c.map (fun p => p.2.toNat)).sum

/-- The `while c:` loop of `format_ranges`: one iteration scans `c.items()`
with `passFold`, appends the run `(start, it)` to `result`, subtracts the
run from the counter and drops non-positive entries.  `fuel` bounds the
number of passes; `formatLoop_fuel` below shows `totalCount c` passes
always suffice, so the fuelled loop agrees with Python's unbounded one. -/
def formatLoop : Nat → List (Int × Int) → Option Int → List (Int × Int) →
    List (Int × Int)
  | 0, _, _, result => result
  | fuel + 1, c, it0, result =>
      if c = [] then result
      else
        let st := (c.map Prod.fst).foldl passFold (none, it0)
        let s := st.1.getD 0
        let j := st.2.getD 0
        formatLoop fuel (keepPositive (counterSubtract c s j)) st.2
          (result ++ [(s, j)])

/-- Python's tuple ordering on `(start, end)` pairs, used by `result.sort()`. -/
def pairLe (p q : Int × Int) : Prop :=
  p.1 < q.1 ∨ (p.1 = q.1 ∧ p.2 ≤ q.2)

instance : DecidableRel pairLe := fun p q =>
  inferInstanceAs (Decidable (p.1 < q.1 ∨ (p.1 = q.1 ∧ p.2 ≤ q.2)))

instance : IsTrans (Int × Int) pairLe where
  trans a b c hab hbc := by
    rcases hab with h | ⟨h1, h2⟩
    · rcases hbc with h | ⟨h1, h2⟩
      · exact Or.inl (by omega)
      · exact Or.inl (by omega)
    · rcases hbc with h | ⟨h3, h4⟩
      · exact Or.inl (by omega)
      · exact Or.inr ⟨by omega, by omega⟩

instance : IsTotal (Int × Int) pairLe where
  total a b := by
    rcases lt_trichotomy a.1 b.1 with h | h | h
    · exact Or.inl (Or.inl h)
    · rcases le_total a.2 b.2 with h2 | h2
      · exact Or.inl (Or.inr ⟨h, h2⟩)
      · exact Or.inr (Or.inr ⟨h.symm, h2⟩)
    · exact Or.inr (Or.inl h)

instance : IsAntisymm (Int × Int) pairLe where
  antisymm a b hab hba := by
    have h1 : a.1 = b.1 := by
      rcases hab with h | ⟨h, _⟩ <;> rcases hba with h2 | ⟨h2, _⟩ <;> omega
    have h2 : a.2 = b.2 := by
      rcases hab with h | ⟨_, h⟩ <;> rcases hba with h2 | ⟨_, h2⟩ <;> omega
    exact Prod.ext h1 h2

/-- `sorted(initial)` (ascending). -/
def sortInt (l : List Int) : List Int :=
  List.insertionSort (fun a b => a ≤ b) l

/-- `result.sort()` (lexicographic on pairs). -/
def sortPairs (l : List (Int × Int)) : List (Int × Int) :=
  List.insertionSort pairLe l

/-- `f"{i}-{j}" if i != j else str(i)`. -/
def renderRun (p : Int × Int) : List Char :=
  if p.1 ≠ p.2 then intToChars p.1 ++ '-' :: intToChars p.2 else intToChars p.1

/-- `format_ranges(initial)` from src/format_ranges/format_ranges.py:
sort, build the counter, repeatedly extract one `(start, it)` pass and
subtract it, then sort the collected runs and comma-join their renderings. -/
def format_ranges (initial : List Int) : List Char :=
  let sorted_list := sortInt initial
  let c := toCounter sorted_list
  let result := formatLoop (totalCount c) c none []
  let result' := sortPairs result
  pyJoin ',' (result'.map renderRun)

/-! Spec-side description of the compression algorithm (§4.1): sort the
distinct values ascending and group maximal runs of consecutive integers. -/

/-- Modelled from the spec: extend a run ending at `j` while the next value
is exactly one greater; returns the run's end and the unconsumed suffix. -/
def specRunEnd : Int → List Int → Int × List Int
  | j, [] => (j, [])
  | j, k :: rest => if k = j + 1 then specRunEnd k rest else (j, k :: rest)

/-- Maximal-run decomposition, structurally recursive on a fuel argument so
that it evaluates by kernel reduction (`specRuns_cons` recovers the natural
recursion; one run consumes at least one element, so `K.length` passes
suffice). -/
def specRunsAux : Nat → List Int → List (Int × Int)
  | 0, _ => []
  | _, [] => []
  | fuel + 1, k :: rest =>
      (k, (specRunEnd k rest).1) :: specRunsAux fuel (specRunEnd k rest).2

/-- Modelled from the spec: the maximal runs of consecutive integers of an
ascending list, in order, each as a `(start, end)` pair. -/
def specRuns (K : List Int) : List (Int × Int) := specRunsAux K.length K

/-- The final counter of the `while c:` loop of `format_ranges`, after at
most `fuel` passes: the same iteration as `formatLoop`, observed on the
counter instead of on `result` (used to state that the loop terminates by
emptying the counter). -/
def formatLoopState : Nat → List (Int × Int) → Option Int → List (Int × Int)
  | 0, c, _ => c
  | fuel + 1, c, it0 =>
      if c = [] then []
      else
        let st := (c.map Prod.fst).foldl passFold (none, it0)
        formatLoopState fuel
          (keepPositive (counterSubtract c (st.1.getD 0) (st.2.getD 0))) st.2

/-- A `(start, end)` run as a grammar token: `n` for a one-element run,
`a-b` otherwise (mirroring `renderRun`). -/
def runTok (p : Int × Int) : SpecTok :=
  if p.1 = p.2 then SpecTok.single p.1 else SpecTok.pair p.1 p.2

/-! ## `add` (src/add/add.py)

`add` zips its arguments with a sentinel fill value (two levels deep only),
summing the innermost tuples.  Python values are the tagged union `PyObj`;
`none` inside a zipped row models the sentinel `fillvalue`; `Except` models
the two exception kinds the function can raise: `zip_longest` over a
non-iterable and `sum` over a list raise `TypeError`, the explicit
`raise ValueError()` fires when the sentinel shows up (a length mismatch). -/

/-- A Python value as `add` sees it: a number or a list. -/
inductive PyObj where
  | num : Int → PyObj
  | list : List PyObj → PyObj

/-- The two exception kinds `add` can raise. -/
inductive PyErr where
  | typeError : PyErr
  | valueError : PyErr
deriving DecidableEq

/-- `iter(x)`: a list iterates to its elements, a number raises `TypeError`. -/
def asList : PyObj → Option (List PyObj)
  | PyObj.list l => some l
  | PyObj.num _ => none

/-- `zip_longest(*args, ...)` calls `iter` on every argument up front. -/
def allLists (args : List PyObj) : Option (List (List PyObj)) :=
  args.mapM asList

/-- Length of the longest argument (`zip_longest` pads to it). -/
def maxLen (ls : List (List α)) : Nat :=
  ls.foldr (fun l m => max l.length m) 0

/-- `zip_longest(*ls, fillvalue=...)`: the `i`-th output row pairs the
`i`-th element of every list, `none` standing for the sentinel fill. -/
def zipLongest (ls : List (List α)) : List (List (Option α)) :=
  (List.range (maxLen ls)).map (fun i => ls.map (fun l => l.get? i))

/-- `sum(items)`: left fold from `0`; adding a list to an int raises
`TypeError`. -/
def sumCells (cells : List PyObj) : Except PyErr Int :=
  cells.foldlM
    (fun acc v =>
      match v with
      | PyObj.num n => Except.ok (acc + n)
      | PyObj.list _ => Except.error PyErr.typeError)
    0

/-- The body of the outer loop of `add`, for one `zipped` row: check for
the sentinel, re-zip the row's elements, and sum each innermost tuple. -/
def addRow (zipped : List (Option PyObj)) : Except PyErr (List Int) :=
  if zipped.any (fun o => o.isNone) then Except.error PyErr.valueError
  else
    match allLists zipped.reduceOption with
    | none => Except.error PyErr.typeError
    | some rows =>
        (zipLongest rows).foldlM
          (fun inp items =>
            if items.any (fun o => o.isNone) then Except.error PyErr.valueError
            else (sumCells items.reduceOption).map (fun s => inp ++ [s]))
          []

/-- `add(*args)` from src/add/add.py, consumed to a result or an exception. -/
def add (args : List PyObj) : Except PyErr (List (List Int)) :=
  match allLists args with
  | none => Except.error PyErr.typeError
  | some ls =>
      (zipLongest ls).foldlM
        (fun response zipped => (addRow zipped).map (fun inp => response ++ [inp]))
        []

/-- A matrix of numbers as a `PyObj` (list of lists of numbers). -/
def matOf (A : List (List Int)) : PyObj :=
  PyObj.list (A.map (fun r => PyObj.list (r.map PyObj.num)))

/-! ## `deep_flatten` (src/deep_flatten/deep_flatten.py)

Values are numbers (non-iterable leaves), strings (iterable, but yielded
whole when met as elements) and lists.  `deep_flatten` of a number takes
the `except TypeError` path and yields the argument itself; of a string or
list it iterates, yielding string elements whole and recursing otherwise
(iterating a string yields its characters as one-character strings, each of
which passes the `isinstance(item, str)` check). -/

/-- A Python value as `deep_flatten` sees it. -/
inductive FObj where
  | num : Int → FObj
  | str : List Char → FObj
  | list : List FObj → FObj

/-- `isinstance(item, str)`. -/
def isStrF : FObj → Bool
  | FObj.str _ => true
  | _ => false

/-- `deep_flatten(items)`, consumed to exhaustion (it never raises: the
only `TypeError` — iterating a number — is caught and turns the argument
into a leaf). -/
def deep_flatten : FObj → List FObj
  | FObj.num n => [FObj.num n]
  | FObj.str s => s.map (fun c => FObj.str [c])
  | FObj.list items =>
      items.attach.flatMap (fun x =>
        if isStrF x.1 then [x.1] else deep_flatten x.1)
  termination_by v => sizeOf v
  decreasing_by
    have hmem := x.2
    have := List.sizeOf_lt_of_mem hmem
    simp only [FObj.list.sizeOf_spec]
    omega

/-- Modelled from the spec (§4.4): the leaves of a nested structure, where
exactly strings and non-iterables are leaves — a string is never
decomposed, even as the top-level argument. -/
def specLeaves : FObj → List FObj
  | FObj.num n => [FObj.num n]
  | FObj.str s => [FObj.str s]
  | FObj.list items => items.attach.flatMap (fun x => specLeaves x.1)
  termination_by v => sizeOf v
  decreasing_by
    have hmem := x.2
    have := List.sizeOf_lt_of_mem hmem
    simp only [FObj.list.sizeOf_spec]
    omega

/-! ### Basic facts about the string helpers -/

theorem pySplit_ne_nil (sep : Char) (s : List Char) : pySplit sep s ≠ [] := by
  induction s with
  | nil => simp [pySplit]
  | cons c cs ih =>
      unfold pySplit at ih ⊢
      simp only [List.foldr_cons]
      rcases h : cs.foldr _ [[]] with _ | ⟨cur, rest⟩
      · exact absurd h ih
      · by_cases hc : c = sep <;> simp [hc]

theorem pySplit_cons (sep : Char) (c : Char) (cs : List Char) :
    pySplit sep (c :: cs) =
      match pySplit sep cs with
      | cur :: rest => if c = sep then [] :: cur :: rest else (c :: cur) :: rest
      | [] => [] := by
  unfold pySplit
  simp only [List.foldr_cons]

theorem pySplit_sepFree (sep : Char) (l : List Char)
    (h : ∀ c ∈ l, c ≠ sep) : pySplit sep l = [l] := by
  induction l with
  | nil => simp [pySplit]
  | cons c cs ih =>
      rw [pySplit_cons, ih (fun x hx => h x (List.mem_cons_of_mem _ hx))]
      simp [h c (List.mem_cons_self c cs)]

theorem pySplit_append (sep : Char) (l r : List Char) (h : List Char)
    (t : List (List Char))
    (hfree : ∀ c ∈ l, c ≠ sep) (hr : pySplit sep r = h :: t) :
    pySplit sep (l ++ r) = (l ++ h) :: t := by
  induction l with
  | nil => simpa using hr
  | cons c cs ih =>
      have := ih (fun x hx => hfree x (List.mem_cons_of_mem _ hx))
      rw [List.cons_append, pySplit_cons, this]
      simp [hfree c (List.mem_cons_self c cs)]

theorem pySplit_sep_cons (sep : Char) (r : List Char) :
    pySplit sep (sep :: r) = [] :: pySplit sep r := by
  rw [pySplit_cons]
  rcases h : pySplit sep r with _ | ⟨cur, rest⟩
  · exact absurd h (pySplit_ne_nil sep r)
  · simp

/-- Splitting undoes joining as long as every part is separator-free. -/
theorem pySplit_pyJoin (sep : Char) (parts : List (List Char))
    (hne : parts ≠ [])
    (hfree : ∀ p ∈ parts, ∀ c ∈ p, c ≠ sep) :
    pySplit sep (pyJoin sep parts) = parts := by
  induction parts with
  | nil => exact absurd rfl hne
  | cons p rest ih =>
      rcases rest with _ | ⟨q, rest'⟩
      · simpa [pyJoin] using
          pySplit_sepFree sep p (hfree p (List.mem_cons_self _ _))
      · have hrest := ih (by simp)
          (fun x hx c hc => hfree x (List.mem_cons_of_mem _ hx) c hc)
        have hjoin : pyJoin sep (p :: q :: rest') =
            p ++ sep :: pyJoin sep (q :: rest') := by
          simp [pyJoin]
        rw [hjoin]
        have hsplit : pySplit sep (sep :: pyJoin sep (q :: rest')) =
            [] :: q :: rest' := by
          rw [pySplit_sep_cons, hrest]
        have := pySplit_append sep p (sep :: pyJoin sep (q :: rest'))
          [] (q :: rest') (hfree p (List.mem_cons_self _ _)) hsplit
        simpa using this

/-! ### Decimal round trip -/

theorem isDigitCh_digitChar {d : Nat} (h : d < 10) :
    isDigitCh (digitChar d) = true := by
  interval_cases d <;> rfl

theorem toNat_digitChar {d : Nat} (h : d < 10) :
    (digitChar d).toNat = 48 + d := by
  interval_cases d <;> rfl

theorem natToCharsAux_fuel : ∀ (f₁ : Nat), ∀ (f₂ n : Nat), n < f₁ → n < f₂ →
    natToCharsAux f₁ n = natToCharsAux f₂ n := by
  intro f₁
  induction f₁ with
  | zero => intro f₂ n h1 _; omega
  | succ f ih =>
      intro f₂ n h1 h2
      rcases f₂ with _ | f₂
      · omega
      · simp only [natToCharsAux]
        by_cases h : n < 10
        · simp [h]
        · rw [if_neg h, if_neg h, ih f₂ (n / 10) (by omega) (by omega)]

/-- The natural recursion of decimal rendering. -/
theorem natToChars_unfold (n : Nat) :
    natToChars n = if n < 10 then [digitChar n]
      else natToChars (n / 10) ++ [digitChar (n % 10)] := by
  show natToCharsAux (n + 1) n = _
  simp only [natToCharsAux]
  by_cases h : n < 10
  · simp [h]
  · rw [if_neg h, if_neg h]
    unfold natToChars
    rw [natToCharsAux_fuel n (n / 10 + 1) (n / 10) (by omega) (by omega)]

theorem natToChars_digits (n : Nat) : ∀ c ∈ natToChars n, isDigitCh c = true := by
  induction n using Nat.strong_induction_on with
  | _ n ih =>
      intro c hc
      rw [natToChars_unfold] at hc
      by_cases h : n < 10
      · rw [if_pos h] at hc
        simp only [List.mem_singleton] at hc
        exact hc ▸ isDigitCh_digitChar h
      · rw [if_neg h] at hc
        rcases List.mem_append.mp hc with h1 | h1
        · exact ih (n / 10) (Nat.div_lt_self (by omega) (by omega)) c h1
        · simp only [List.mem_singleton] at h1
          exact h1 ▸ isDigitCh_digitChar (Nat.mod_lt _ (by omega))

theorem natToChars_ne_nil (n : Nat) : natToChars n ≠ [] := by
  rw [natToChars_unfold]
  by_cases h : n < 10 <;> simp [h]

theorem parseDigitsAux_append (acc : Nat) (xs ys : List Char) :
    parseDigitsAux acc (xs ++ ys) =
      match parseDigitsAux acc xs with
      | some v => parseDigitsAux v ys
      | none => none := by
  induction xs generalizing acc with
  | nil => simp [parseDigitsAux]
  | cons c rest ih =>
      simp only [List.cons_append, parseDigitsAux]
      by_cases h : isDigitCh c
      · simp only [h, if_pos]
        exact ih _
      · simp [h]

theorem parseDigitsAux_natToChars (n : Nat) : ∀ acc,
    parseDigitsAux acc (natToChars n) =
      some (acc * 10 ^ (natToChars n).length + n) := by
  induction n using Nat.strong_induction_on with
  | _ n ih =>
      intro acc
      rw [natToChars_unfold]
      by_cases h : n < 10
      · rw [if_pos h]
        simp [parseDigitsAux, isDigitCh_digitChar h, toNat_digitChar h]
        omega
      · rw [if_neg h]
        rw [parseDigitsAux_append]
        have hrec := ih (n / 10) (Nat.div_lt_self (by omega) (by omega)) acc
        rw [hrec]
        have hm : n % 10 < 10 := Nat.mod_lt _ (by omega)
        simp [parseDigitsAux, isDigitCh_digitChar hm, toNat_digitChar hm]
        rw [pow_succ]
        calc 10 * (acc * 10 ^ (natToChars (n / 10)).length + n / 10) + n % 10
            = acc * (10 ^ (natToChars (n / 10)).length * 10)
              + (10 * (n / 10) + n % 10) := by ring
          _ = _ := by rw [Nat.div_add_mod]

theorem parseDigits_natToChars (n : Nat) :
    parseDigits (natToChars n) = some n := by
  have hne := natToChars_ne_nil n
  rcases h : natToChars n with _ | ⟨c, rest⟩
  · exact absurd h hne
  · have := parseDigitsAux_natToChars n 0
    rw [h] at this
    simpa [parseDigits] using this

theorem pyInt_natToChars (n : Nat) : pyInt (natToChars n) = some (n : Int) := by
  rcases h : natToChars n with _ | ⟨c, rest⟩
  · exact absurd h (natToChars_ne_nil n)
  · have hd : isDigitCh c = true := by
      have := natToChars_digits n c
      rw [h] at this
      exact this (List.mem_cons_self _ _)
    have hc1 : c ≠ '-' := by
      intro hc
      rw [hc] at hd
      simp [isDigitCh] at hd
    have hc2 : c ≠ '+' := by
      intro hc
      rw [hc] at hd
      simp [isDigitCh] at hd
    have := parseDigits_natToChars n
    rw [h] at this
    simp [pyInt, hc1, hc2, this]

/-- For a non-negative integer, Python's `str` and `int` round-trip. -/
theorem pyInt_intToChars {i : Int} (h : 0 ≤ i) :
    pyInt (intToChars i) = some i := by
  unfold intToChars
  rw [if_neg (by omega)]
  rw [pyInt_natToChars]
  congr 1
  omega

theorem intToChars_digits {i : Int} (h : 0 ≤ i) :
    ∀ c ∈ intToChars i, isDigitCh c = true := by
  unfold intToChars
  rw [if_neg (by omega)]
  exact natToChars_digits _

theorem pyInt_of_parseDigits {a : List Char} {n : Nat}
    (h : parseDigits a = some n) : pyInt a = some (n : Int) := by
  rcases a with _ | ⟨c, rest⟩
  · simp [parseDigits] at h
  · have hd : isDigitCh c = true := by
      by_contra hd
      simp [parseDigits, parseDigitsAux, hd] at h
    have hc1 : c ≠ '-' := fun hc => by rw [hc] at hd; simp [isDigitCh] at hd
    have hc2 : c ≠ '+' := fun hc => by rw [hc] at hd; simp [isDigitCh] at hd
    simp [pyInt, hc1, hc2, h]

theorem parseDigits_all_digits {a : List Char} {n : Nat}
    (h : parseDigits a = some n) : ∀ c ∈ a, isDigitCh c = true := by
  have key : ∀ (l : List Char) (acc : Nat) (x : Char), x ∈ l →
      ¬ isDigitCh x = true → parseDigitsAux acc l = none := by
    intro l
    induction l with
    | nil => intro acc x hm; simp at hm
    | cons y ys ih =>
        intro acc x hm hnd
        rcases List.mem_cons.mp hm with rfl | hm'
        · simp [parseDigitsAux, hnd]
        · by_cases hy : isDigitCh y
          · simp only [parseDigitsAux, hy, if_pos]
            exact ih _ _ hm' hnd
          · simp [parseDigitsAux, hy]
  intro x hx
  by_contra hbad
  rcases a with _ | ⟨c, rest⟩
  · simp at hx
  · simp only [parseDigits] at h
    rw [key (c :: rest) 0 x hx hbad] at h
    exact Option.noConfusion h

theorem parse_ranges_toks_ok (ts : List (List Char)) :
    ∀ acc, (∀ t ∈ ts, ∃ xs, parseToken t = Except.ok xs) →
    parse_ranges_toks ts acc = (acc ++ ts.flatMap tokenYield, false) := by
  induction ts with
  | nil => intro acc _; simp [parse_ranges_toks]
  | cons t ts ih =>
      intro acc h
      obtain ⟨xs, hxs⟩ := h t (List.mem_cons_self _ _)
      simp only [parse_ranges_toks, hxs]
      rw [ih _ (fun u hu => h u (List.mem_cons_of_mem _ hu))]
      simp [tokenYield, hxs]

theorem parse_ranges_toks_err (good : List (List Char)) (bad : List Char)
    (rest : List (List Char)) :
    ∀ acc, (∀ t ∈ good, ∃ xs, parseToken t = Except.ok xs) →
    (∃ e, parseToken bad = Except.error e) →
    parse_ranges_toks (good ++ bad :: rest) acc =
      (acc ++ good.flatMap tokenYield, true) := by
  induction good with
  | nil =>
      intro acc _ hbad
      obtain ⟨e, he⟩ := hbad
      simp [parse_ranges_toks, he]
  | cons t ts ih =>
      intro acc h hbad
      obtain ⟨xs, hxs⟩ := h t (List.mem_cons_self _ _)
      have step : parse_ranges_toks ((t :: ts) ++ bad :: rest) acc =
          parse_ranges_toks (ts ++ bad :: rest) (acc ++ xs) := by
        simp [parse_ranges_toks, hxs]
      rw [step, ih _ (fun u hu => h u (List.mem_cons_of_mem _ hu)) hbad]
      simp [tokenYield, hxs]


/-! ### `rangeList` facts -/

theorem rangeList_cons {a b : Int} (h : a ≤ b) :
    rangeList a b = a :: rangeList (a + 1) b := by
  unfold rangeList
  have h1 : (b + 1 - a).toNat = (b + 1 - (a + 1)).toNat + 1 := by omega
  rw [h1, List.range_succ_eq_map]
  simp only [List.map_cons, List.map_map, Nat.cast_zero, add_zero]
  refine List.cons_eq_cons.mpr ⟨rfl, ?_⟩
  apply List.map_congr_left
  intro i _
  simp only [Function.comp_apply]
  push_cast
  ring

theorem rangeList_empty {a b : Int} (h : b < a) : rangeList a b = [] := by
  unfold rangeList
  have : (b + 1 - a).toNat = 0 := by omega
  simp [this]

theorem rangeList_single (a : Int) : rangeList a a = [a] := by
  rw [rangeList_cons le_rfl, rangeList_empty (by omega)]

theorem mem_rangeList {a b x : Int} : x ∈ rangeList a b ↔ a ≤ x ∧ x ≤ b := by
  unfold rangeList
  constructor
  · intro hx
    obtain ⟨i, hi, hxi⟩ := List.mem_map.mp hx
    rw [List.mem_range] at hi
    omega
  · intro hx
    refine List.mem_map.mpr ⟨(x - a).toNat, ?_, ?_⟩
    · rw [List.mem_range]; omega
    · omega

theorem rangeList_chain (a b : Int) :
    List.Chain' (fun x y => y = x + 1) (rangeList a b) := by
  have key : ∀ (n : Nat) (a : Int), (b + 1 - a).toNat = n →
      List.Chain' (fun x y => y = x + 1) (rangeList a b) := by
    intro n
    induction n with
    | zero =>
        intro a ha
        rw [rangeList_empty (by omega)]
        exact List.chain'_nil
    | succ m ih =>
        intro a ha
        rw [rangeList_cons (by omega)]
        rcases Nat.eq_zero_or_pos m with hm | hm
        · rw [rangeList_empty (by omega)]
          simp
        · rw [rangeList_cons (by omega)]
          have htail := ih (a + 1) (by omega)
          rw [rangeList_cons (by omega)] at htail
          exact htail.cons rfl
  exact key _ a rfl

theorem rangeList_sorted (a b : Int) :
    List.Chain' (fun x y => x < y) (rangeList a b) := by
  have h := rangeList_chain a b
  exact h.imp (fun hxy => by omega)

/-! ### Digit characters are not separators -/

theorem digit_ne_hyphen {c : Char} (h : isDigitCh c = true) : c ≠ '-' :=
  fun heq => absurd (heq ▸ h) (by decide)

theorem digit_ne_comma {c : Char} (h : isDigitCh c = true) : c ≠ ',' :=
  fun heq => absurd (heq ▸ h) (by decide)

theorem exitChars_hyphenFree : ∀ c ∈ exitChars, c ≠ '-' := by decide

/-! ### `parseToken` on the token shapes that occur -/

theorem parseToken_digits {t : List Char} {n : Nat}
    (h : parseDigits t = some n) : parseToken t = Except.ok [(n : Int)] := by
  have hd := parseDigits_all_digits h
  have hsf : ∀ c ∈ t, c ≠ '-' := fun c hc => digit_ne_hyphen (hd c hc)
  have hsplit := pySplit_sepFree '-' t hsf
  unfold parseToken
  rw [hsplit]
  simp [pyInt_of_parseDigits h]

theorem pySplit_pair {x y : List Char} (hx : ∀ c ∈ x, c ≠ '-')
    (hy : ∀ c ∈ y, c ≠ '-') :
    pySplit '-' (x ++ '-' :: y) = [x, y] := by
  have h1 : pySplit '-' ('-' :: y) = [] :: [y] := by
    rw [pySplit_sep_cons, pySplit_sepFree '-' y hy]
  have := pySplit_append '-' x ('-' :: y) [] [y] hx h1
  simpa using this

theorem parseToken_exit {t : List Char} {n : Nat}
    (h : parseDigits t = some n) :
    parseToken (t ++ '-' :: exitChars) = Except.ok [(n : Int)] := by
  have hd := parseDigits_all_digits h
  have hsf : ∀ c ∈ t, c ≠ '-' := fun c hc => digit_ne_hyphen (hd c hc)
  have hsplit := pySplit_pair hsf exitChars_hyphenFree
  unfold parseToken
  rw [hsplit]
  simp [pyInt_of_parseDigits h]

theorem parseToken_pair {a b : Int} (ha : 0 ≤ a) (hb : 0 ≤ b) :
    parseToken (intToChars a ++ '-' :: intToChars b) =
      Except.ok (rangeList a b) := by
  have hda := intToChars_digits ha
  have hdb := intToChars_digits hb
  have hsplit := pySplit_pair
    (fun c hc => digit_ne_hyphen (hda c hc))
    (fun c hc => digit_ne_hyphen (hdb c hc))
  have hbx : intToChars b ≠ exitChars := by
    intro hbe
    have : isDigitCh '>' = true := hdb '>' (by rw [hbe]; decide)
    exact absurd this (by decide)
  unfold parseToken
  rw [hsplit]
  simp [hbx, pyInt_intToChars ha, pyInt_intToChars hb]

/-! ### Well-formed range strings (C8, C10) -/

theorem flatMap_of_map {α β γ : Type} (l : List α) (f : α → β) (g : β → List γ) :
    (l.map f).flatMap g = l.flatMap (fun x => g (f x)) := by
  induction l with
  | nil => rfl
  | cons x xs ih => simp [ih]

theorem flatMapCongr {α β : Type} {l : List α} {f g : α → List β}
    (h : ∀ x ∈ l, f x = g x) : l.flatMap f = l.flatMap g := by
  induction l with
  | nil => rfl
  | cons x xs ih =>
      simp only [List.flatMap_cons, h x (List.mem_cons_self _ _)]
      rw [ih (fun y hy => h y (List.mem_cons_of_mem _ hy))]

theorem renderTok_commaFree {t : SpecTok} (h : wfTok t = true) :
    ∀ c ∈ renderTok t, c ≠ ',' := by
  cases t with
  | single n =>
      have hn : (0:Int) ≤ n := by simpa [wfTok] using h
      exact fun c hc => digit_ne_comma (intToChars_digits hn c hc)
  | pair a b =>
      have hab : (0:Int) ≤ a ∧ a ≤ b := by simpa [wfTok] using h
      intro c hc
      simp only [renderTok] at hc
      rcases List.mem_append.mp hc with h1 | h1
      · exact digit_ne_comma (intToChars_digits hab.1 c h1)
      · rcases List.mem_cons.mp h1 with rfl | h2
        · decide
        · exact digit_ne_comma
            (intToChars_digits (le_trans hab.1 hab.2) c h2)

theorem parseToken_renderTok {t : SpecTok} (h : wfTok t = true) :
    parseToken (renderTok t) = Except.ok (expandTok t) := by
  cases t with
  | single n =>
      have hn : (0:Int) ≤ n := by simpa [wfTok] using h
      have he : intToChars n = natToChars n.toNat := by
        unfold intToChars
        rw [if_neg (by omega)]
      have := parseToken_digits (parseDigits_natToChars n.toNat)
      simp only [renderTok, expandTok, he, this]
      congr 2
      omega
  | pair a b =>
      have hab : (0:Int) ≤ a ∧ a ≤ b := by simpa [wfTok] using h
      simp only [renderTok, expandTok]
      exact parseToken_pair hab.1 (le_trans hab.1 hab.2)

/-- Core of the well-formed-string analysis: a comma-join of well-formed
tokens parses to the concatenation of the tokens' expansions, in input
order, with no error. -/
theorem parse_wellFormed_core (ts : List SpecTok) (hne : ts ≠ [])
    (hwf : ∀ t ∈ ts, wfTok t = true) :
    parse_ranges (pyJoin ',' (ts.map renderTok)) =
      (ts.flatMap expandTok, false) := by
  have hsplit : pySplit ',' (pyJoin ',' (ts.map renderTok)) = ts.map renderTok :=
    pySplit_pyJoin ',' (ts.map renderTok)
      (fun hmap => hne (List.map_eq_nil_iff.mp hmap))
      (fun p hp => by
        obtain ⟨u, hu, rfl⟩ := List.mem_map.mp hp
        exact renderTok_commaFree (hwf u hu))
  unfold parse_ranges
  rw [hsplit]
  rw [parse_ranges_toks_ok (ts.map renderTok) []
    (fun t ht => by
      obtain ⟨u, hu, rfl⟩ := List.mem_map.mp ht
      exact ⟨expandTok u, parseToken_renderTok (hwf u hu)⟩)]
  rw [flatMap_of_map]
  have hyield : ∀ u ∈ ts, tokenYield (renderTok u) = expandTok u := fun u hu => by
    simp [tokenYield, parseToken_renderTok (hwf u hu)]
  rw [@flatMapCongr SpecTok Int ts (fun x => tokenYield (renderTok x))
    expandTok hyield]
  simp

/-- C8: for a well-formed range string — comma-joined tokens, each a bare
non-negative integer or a pair `a-b` with `a ≤ b` — `parse_ranges` yields a
bare token as that integer and an `a-b` token as every integer from `a` to
`b` inclusive in ascending order (`rangeList`), token by token in input
order, with no error.  The second conjunct pins down `rangeList`: it
contains exactly the integers between the bounds and is strictly
ascending in consecutive steps. -/
theorem C8_parse_wellFormed :
    (∀ ts : List SpecTok, ts ≠ [] → (∀ t ∈ ts, wfTok t = true) →
      parse_ranges (pyJoin ',' (ts.map renderTok)) =
        (ts.flatMap expandTok, false)) ∧
    (∀ a b x : Int, x ∈ rangeList a b ↔ a ≤ x ∧ x ≤ b) ∧
    (∀ a b : Int, List.Chain' (fun x y => y = x + 1) (rangeList a b)) :=
  ⟨parse_wellFormed_core, fun a b x => mem_rangeList, fun a b => rangeList_chain a b⟩

/-- C8 witness: the spec's concrete scenario `"1-3,5,7-9"`. -/
theorem C8_parse_wellFormed_witness :
    ([SpecTok.pair 1 3, SpecTok.single 5, SpecTok.pair 7 9] ≠ [] ∧
      (∀ t ∈ [SpecTok.pair 1 3, SpecTok.single 5, SpecTok.pair 7 9],
        wfTok t = true)) ∧
    parse_ranges ("1-3,5,7-9".toList) = ([1, 2, 3, 5, 7, 8, 9], false) := by
  refine ⟨⟨by decide, by decide⟩, ?_⟩
  have h := C8_parse_wellFormed.1
    [SpecTok.pair 1 3, SpecTok.single 5, SpecTok.pair 7 9]
    (by decide) (by decide)
  have heq : pyJoin ','
      (([SpecTok.pair 1 3, SpecTok.single 5, SpecTok.pair 7 9]).map renderTok) =
      "1-3,5,7-9".toList := by decide
  have hex : ([SpecTok.pair 1 3, SpecTok.single 5,
      SpecTok.pair 7 9]).flatMap expandTok = [1, 2, 3, 5, 7, 8, 9] := by decide
  rw [heq, hex] at h
  exact h

/-- C10 (implicit): a token `A->exit` with numeric `A` is not malformed —
`parse_ranges` yields `int(A)` alone for it and goes on with the remaining
tokens, as the concrete run `"1-2,4->exit,8-10"` shows. -/
theorem C10_exit_token :
    (∀ (a : List Char) (n : Nat), parseDigits a = some n →
      parseToken (a ++ '-' :: exitChars) = Except.ok [(n : Int)]) ∧
    parse_ranges ("1-2,4->exit,8-10".toList) = ([1, 2, 4, 8, 9, 10], false) := by
  exact ⟨fun a n h => parseToken_exit h, by decide⟩

/-- C10 witness: the `4->exit` token itself. -/
theorem C10_exit_token_witness :
    parseDigits ['4'] = some 4 ∧
    parseToken (['4'] ++ '-' :: exitChars) = Except.ok [(4 : Int)] :=
  ⟨by decide, C10_exit_token.1 ['4'] 4 (by decide)⟩

/-! ### Malformed tokens (C5) -/

theorem pySplit_length (sep : Char) (t : List Char) :
    (pySplit sep t).length = t.count sep + 1 := by
  induction t with
  | nil => simp [pySplit]
  | cons c cs ih =>
      rw [pySplit_cons]
      rcases hs : pySplit sep cs with _ | ⟨cur, rest⟩
      · exact absurd hs (pySplit_ne_nil sep cs)
      · rw [hs] at ih
        show (if c = sep then [] :: cur :: rest else (c :: cur) :: rest).length
            = (c :: cs).count sep + 1
        by_cases hc : c = sep
        · rw [if_pos hc, hc, List.count_cons_self]
          simp only [List.length_cons] at ih ⊢
          omega
        · rw [if_neg hc, List.count_cons_of_ne (fun hsep => hc hsep.symm)]
          simp only [List.length_cons] at ih ⊢
          omega

theorem pySplit_singleton {sep : Char} {t a : List Char}
    (h : pySplit sep t = [a]) : a = t ∧ t.count sep = 0 := by
  have hlen := pySplit_length sep t
  rw [h] at hlen
  simp only [List.length_singleton] at hlen
  have hcount : t.count sep = 0 := by omega
  have hfree : ∀ c ∈ t, c ≠ sep := by
    intro c hc heq
    subst heq
    have := List.count_pos_iff.mpr hc
    omega
  have hone := pySplit_sepFree sep t hfree
  rw [h] at hone
  injection hone with h1 _
  exact ⟨h1, hcount⟩

theorem pyInt_count {t : List Char} {v : Int} (h : pyInt t = some v) :
    t.count '-' ≤ 1 := by
  have digitsCount : ∀ (l : List Char) (m : Nat), parseDigits l = some m →
      l.count '-' = 0 := by
    intro l m hm
    exact List.count_eq_zero.mpr
      (fun hmem => digit_ne_hyphen (parseDigits_all_digits hm _ hmem) rfl)
  rcases t with _ | ⟨c, rest⟩
  · simp [pyInt] at h
  · by_cases hc : c = '-'
    · subst hc
      simp only [pyInt, if_pos] at h
      rcases hm : parseDigits rest with _ | m
      · rw [hm] at h; simp at h
      · rw [List.count_cons_self, digitsCount rest m hm]
    · rw [List.count_cons_of_ne (fun hsep => hc hsep.symm)]
      by_cases hp : c = '+'
      · subst hp
        rcases hm : parseDigits rest with _ | m
        · simp [pyInt, hm] at h
        · rw [digitsCount rest m hm]
          omega
      · simp only [pyInt, if_neg hc, if_neg hp] at h
        rcases hm : parseDigits (c :: rest) with _ | m
        · rw [hm] at h; simp at h
        · have hz := digitsCount _ m hm
          rw [List.count_cons_of_ne (fun hsep => hc hsep.symm)] at hz
          omega

theorem pyInt_exitChars : pyInt exitChars = none := rfl

theorem parseToken_split₁ {tok a : List Char} (h : pySplit '-' tok = [a]) :
    parseToken tok =
      (match pyInt tok with
        | some n => Except.ok [n]
        | none => Except.error ()) := by
  unfold parseToken
  rw [h]

theorem parseToken_split₂ {tok a b : List Char} (h : pySplit '-' tok = [a, b]) :
    parseToken tok =
      (if b = exitChars then
        match pyInt a with
        | some n => Except.ok [n]
        | none => Except.error ()
      else
        match pyInt a, pyInt b with
        | some x, some y => Except.ok (rangeList x y)
        | _, _ => Except.error ()) := by
  unfold parseToken
  rw [h]

theorem parseToken_split₃ {tok a b c : List Char} {r : List (List Char)}
    (h : pySplit '-' tok = a :: b :: c :: r) :
    parseToken tok =
      (match pyInt tok with
        | some n => Except.ok [n]
        | none => Except.error ()) := by
  unfold parseToken
  rw [h]

/-- C5 (amended): a `parse_ranges` token fails exactly when it has two or
more hyphens or a non-numeric part, except that a two-part token whose
right part is literally `>exit` succeeds whenever its left part is
numeric.  A failing token yields nothing itself, but the integers of the
earlier, well-formed tokens are still yielded before the error; in
particular `parse_ranges("1-2-3")` yields nothing and raises. -/
theorem C5_parse_malformed :
    (∀ t : List Char,
      (∃ e, parseToken t = Except.error e) ↔
        ((2 ≤ t.count '-' ∨ ∃ p ∈ pySplit '-' t, pyInt p = none) ∧
          ¬ ∃ a, pySplit '-' t = [a, exitChars] ∧ ∃ n, pyInt a = some n)) ∧
    (∀ (good : List (List Char)) (bad : List Char) (rest : List (List Char)),
      (∀ t ∈ good, ∃ xs, parseToken t = Except.ok xs) →
      (∃ e, parseToken bad = Except.error e) →
      parse_ranges_toks (good ++ bad :: rest) [] =
        (good.flatMap tokenYield, true)) ∧
    parse_ranges ("1-2-3".toList) = ([], true) := by
  refine ⟨?_, ?_, by decide⟩
  · intro t
    have hlen := pySplit_length '-' t
    rcases hs : pySplit '-' t with _ | ⟨a, _ | ⟨b, _ | ⟨c3, r3⟩⟩⟩
    · exact absurd hs (pySplit_ne_nil '-' t)
    · -- one part: the token itself must be numeric
      obtain ⟨haeq, hcount⟩ := pySplit_singleton hs
      subst haeq
      rw [parseToken_split₁ hs]
      rcases hv : pyInt a with _ | v
      · simp [hv, hcount]
      · simp [hv, hcount]
    · -- two parts
      rw [hs] at hlen
      simp only [List.length_cons, List.length_nil] at hlen
      have hcount : t.count '-' = 1 := by omega
      by_cases hbe : b = exitChars
      · subst hbe
        rw [parseToken_split₂ hs, if_pos rfl]
        rcases hv : pyInt a with _ | v
        · simp [hv, hcount, pyInt_exitChars]
        · simp [hv, hcount, pyInt_exitChars]
      · rw [parseToken_split₂ hs, if_neg hbe]
        rcases hva : pyInt a with _ | va
        · simp [hva, hcount, hbe]
        · rcases hvb : pyInt b with _ | vb
          · simp [hva, hvb, hcount, hbe]
          · simp [hva, hvb, hcount, hbe]
    · -- three or more parts: `int(token)` always fails
      rw [hs] at hlen
      simp only [List.length_cons] at hlen
      have hcount : 2 ≤ t.count '-' := by omega
      have hnone : pyInt t = none := by
        rcases hv : pyInt t with _ | v
        · rfl
        · have := pyInt_count hv
          omega
      rw [parseToken_split₃ hs, hnone]
      simp [hcount]
  · intro good bad rest h1 h2
    have := parse_ranges_toks_err good bad rest [] h1 h2
    simpa using this

/-- C5 witness: `"1"` parses, `"x"` fails, and the driver keeps the values
of the tokens before the failing one. -/
theorem C5_parse_malformed_witness :
    (∀ t ∈ [['1']], ∃ xs, parseToken t = Except.ok xs) ∧
    (∃ e, parseToken ['x'] = Except.error e) ∧
    parse_ranges_toks ([['1']] ++ ['x'] :: [['7']]) [] = ([1], true) := by
  have h1 : ∀ t ∈ [['1']], ∃ xs, parseToken t = Except.ok xs := by
    intro t ht
    rw [List.mem_singleton] at ht
    subst ht
    exact ⟨[1], rfl⟩
  have h2 : ∃ e, parseToken ['x'] = Except.error e := ⟨(), rfl⟩
  refine ⟨h1, h2, ?_⟩
  have h := C5_parse_malformed.2.1 [['1']] ['x'] [['7']] h1 h2
  rw [show ([['1']] : List (List Char)).flatMap tokenYield = [1] from rfl] at h
  exact h

/-- C5 counterexample: the token `4->exit` has a non-numeric part
(`>exit`), yet `parse_ranges` does not raise on it — it yields `4` and
moves on, against the claim that a `FormatError` is raised *exactly* on
tokens with a non-numeric part. -/
theorem C5_parse_malformed_counterexample :
    (∃ p ∈ pySplit '-' ("4->exit".toList), pyInt p = none) ∧
    parseToken ("4->exit".toList) = Except.ok [4] ∧
    parse_ranges ("4->exit".toList) = ([4], false) :=
  ⟨⟨exitChars, by decide, by decide⟩, rfl, by decide⟩

/-! ### The scan over `c.items()` in `format_ranges` -/

theorem passFold_none (it0 : Option Int) (k : Int) :
    passFold (none, it0) k = (some k, some k) := by
  simp [passFold]

theorem passFold_zero (it0 : Option Int) (k : Int) :
    passFold (some 0, it0) k = (some k, some k) := by
  simp [passFold]

theorem passFold_keep {s j k : Int} (hs : s ≠ 0) (hk : k ≠ j + 1) :
    passFold (some s, some j) k = (some s, some j) := by
  simp [passFold, hs, hk]

theorem passFold_extend {s j k : Int} (hs : s ≠ 0) (hk : k = j + 1) :
    passFold (some s, some j) k = (some s, some k) := by
  simp [passFold, hs, hk]

theorem foldl_passFold_keep {s j : Int} (hs : s ≠ 0) :
    ∀ ks : List Int, (∀ x ∈ ks, x ≠ j + 1) →
    ks.foldl passFold (some s, some j) = (some s, some j) := by
  intro ks
  induction ks with
  | nil => intro _; rfl
  | cons k ks ih =>
      intro h
      rw [List.foldl_cons, passFold_keep hs (h k (List.mem_cons_self _ _))]
      exact ih (fun x hx => h x (List.mem_cons_of_mem _ hx))

theorem foldl_passFold_run {s : Int} (hs : s ≠ 0) :
    ∀ (rest : List Int) (j : Int),
    List.Chain' (fun x y => x < y) (j :: rest) →
    rest.foldl passFold (some s, some j) = (some s, some (specRunEnd j rest).1) := by
  intro rest
  induction rest with
  | nil => intro j _; rfl
  | cons k rest ih =>
      intro j hchain
      by_cases hk : k = j + 1
      · rw [List.foldl_cons, passFold_extend hs hk]
        have hse : specRunEnd j (k :: rest) = specRunEnd k rest := by
          simp [specRunEnd, hk]
        rw [hse]
        exact ih k hchain.tail
      · rw [List.foldl_cons, passFold_keep hs hk]
        have hrest : ∀ x ∈ rest, x ≠ j + 1 := by
          intro x hx
          have hpw := List.chain'_iff_pairwise.mp hchain
          obtain ⟨hj, hpw2⟩ := List.pairwise_cons.mp hpw
          obtain ⟨hk2, _⟩ := List.pairwise_cons.mp hpw2
          have h1 : j < k := hj k (List.mem_cons_self _ _)
          have h2 : k < x := hk2 x hx
          omega
        rw [foldl_passFold_keep hs rest hrest]
        simp [specRunEnd, hk]

theorem passFold_someSome (s j k : Int) :
    ∃ a b : Int, passFold (some s, some j) k = (some a, some b) := by
  by_cases h0 : s = 0
  · subst h0
    exact ⟨k, k, passFold_zero _ _⟩
  · by_cases hk : k = j + 1
    · exact ⟨s, k, passFold_extend h0 hk⟩
    · exact ⟨s, j, passFold_keep h0 hk⟩

theorem foldl_passFold_someSome : ∀ (ks : List Int) (s j : Int),
    ∃ a b : Int, ks.foldl passFold (some s, some j) = (some a, some b) := by
  intro ks
  induction ks with
  | nil => intro s j; exact ⟨s, j, rfl⟩
  | cons k ks ih =>
      intro s j
      obtain ⟨a, b, hab⟩ := passFold_someSome s j k
      rw [List.foldl_cons, hab]
      exact ih a b

theorem foldl_passFold_inv (P : Int → Prop) :
    ∀ (ks : List Int), (∀ x ∈ ks, P x) →
    ∀ (st : Option Int × Option Int),
    (∀ s j : Int, st = (some s, some j) →
      ((s ≠ 0 → s ≤ j ∧ ∀ x, s ≤ x → x ≤ j → P x) ∧ (s = 0 → j = 0 ∧ P 0))) →
    ∀ s j : Int, ks.foldl passFold st = (some s, some j) →
      ((s ≠ 0 → s ≤ j ∧ ∀ x, s ≤ x → x ≤ j → P x) ∧ (s = 0 → j = 0 ∧ P 0)) := by
  intro ks
  induction ks with
  | nil =>
      intro _ st hst s j hfold
      exact hst s j hfold
  | cons k ks ih =>
      intro hP st hst
      rw [List.foldl_cons]
      apply ih (fun x hx => hP x (List.mem_cons_of_mem _ hx))
      intro s j hsj
      have hPk := hP k (List.mem_cons_self _ _)
      rcases st with ⟨st1, st2⟩
      by_cases hz : st1 = none ∨ st1 = some 0
      · have hres : passFold (st1, st2) k = (some k, some k) := by
          rcases hz with hz | hz <;> subst hz
          · exact passFold_none _ _
          · exact passFold_zero _ _
        rw [hres] at hsj
        have h1 : k = s := by simpa using congrArg Prod.fst hsj
        have h2 : k = j := by simpa using congrArg Prod.snd hsj
        subst h1
        subst h2
        constructor
        · intro _
          exact ⟨le_rfl, fun x hx1 hx2 => le_antisymm hx2 hx1 ▸ hPk⟩
        · intro h0
          exact ⟨h0, h0 ▸ hPk⟩
      · push_neg at hz
        obtain ⟨hz1, hz2⟩ := hz
        rcases st1 with _ | s0
        · exact absurd rfl hz1
        have hs0 : s0 ≠ 0 := fun h => hz2 (by rw [h])
        rcases st2 with _ | j0
        · have hres : passFold (some s0, none) k = (some s0, none) := by
            simp [passFold, hs0]
          rw [hres] at hsj
          have := congrArg Prod.snd hsj
          simp at this
        · have hinv := hst s0 j0 rfl
          by_cases hk : k = j0 + 1
          · rw [passFold_extend hs0 hk] at hsj
            have h1 : s0 = s := by simpa using congrArg Prod.fst hsj
            have h2 : k = j := by simpa using congrArg Prod.snd hsj
            subst h1
            subst h2
            constructor
            · intro hs0x
              obtain ⟨hle, hcov⟩ := hinv.1 hs0x
              refine ⟨by omega, fun x hx1 hx2 => ?_⟩
              by_cases hxe : x = j0 + 1
              · exact hxe ▸ hk ▸ hPk
              · exact hcov x hx1 (by omega)
            · intro h0
              exact absurd h0 hs0
          · rw [passFold_keep hs0 hk] at hsj
            exact hst s j hsj

theorem foldl_passFold_general (ks : List Int) (hne : ks ≠ [])
    (it0 : Option Int) :
    ∃ s j : Int, ks.foldl passFold (none, it0) = (some s, some j) ∧ s ≤ j ∧
      (∀ x : Int, s ≤ x → x ≤ j → x ∈ ks) := by
  rcases ks with _ | ⟨k, ks⟩
  · exact absurd rfl hne
  · rw [List.foldl_cons, passFold_none]
    obtain ⟨s, j, hsj⟩ := foldl_passFold_someSome ks k k
    refine ⟨s, j, hsj, ?_⟩
    have hinv := foldl_passFold_inv (fun x => x ∈ k :: ks) ks
      (fun x hx => List.mem_cons_of_mem _ hx) (some k, some k)
      (fun s' j' heq => by
        have h1 : k = s' := by simpa using congrArg Prod.fst heq
        have h2 : k = j' := by simpa using congrArg Prod.snd heq
        subst h1
        subst h2
        constructor
        · intro _
          exact ⟨le_rfl, fun x hx1 hx2 =>
            le_antisymm hx2 hx1 ▸ List.mem_cons_self _ _⟩
        · intro h0
          exact ⟨h0, h0 ▸ List.mem_cons_self _ _⟩)
      s j hsj
    by_cases h0 : s = 0
    · obtain ⟨hj0, hmem⟩ := hinv.2 h0
      subst h0
      subst hj0
      exact ⟨le_rfl, fun x hx1 hx2 => le_antisymm hx2 hx1 ▸ hmem⟩
    · exact hinv.1 h0

/-! ### Maximal runs of an ascending list -/

theorem specRunEnd_length : ∀ (l : List Int) (j : Int),
    (specRunEnd j l).2.length ≤ l.length := by
  intro l
  induction l with
  | nil => intro j; simp [specRunEnd]
  | cons k rest ih =>
      intro j
      simp only [specRunEnd]
      by_cases h : k = j + 1
      · rw [if_pos h]
        exact le_trans (ih _) (Nat.le_succ _)
      · rw [if_neg h]

theorem specRunsAux_fuel : ∀ (f₁ f₂ : Nat) (K : List Int),
    K.length ≤ f₁ → K.length ≤ f₂ → specRunsAux f₁ K = specRunsAux f₂ K := by
  intro f₁
  induction f₁ with
  | zero =>
      intro f₂ K h1 _
      have hK : K = [] := List.length_eq_zero.mp (Nat.le_zero.mp h1)
      subst hK
      cases f₂ <;> rfl
  | succ f ih =>
      intro f₂ K h1 h2
      rcases K with _ | ⟨k, rest⟩
      · cases f₂ <;> rfl
      · rcases f₂ with _ | f₂
        · simp at h2
        · simp only [specRunsAux]
          congr 1
          have hlen := specRunEnd_length rest k
          simp only [List.length_cons] at h1 h2
          exact ih f₂ _ (by omega) (by omega)

theorem specRuns_nil : specRuns [] = [] := rfl

theorem specRuns_cons (k : Int) (rest : List Int) :
    specRuns (k :: rest) =
      (k, (specRunEnd k rest).1) :: specRuns (specRunEnd k rest).2 := by
  unfold specRuns
  simp only [List.length_cons, specRunsAux]
  congr 1
  exact specRunsAux_fuel rest.length _ _ (specRunEnd_length rest k) le_rfl

theorem specRunEnd_decomp : ∀ (rest : List Int) (j : Int),
    j ≤ (specRunEnd j rest).1 ∧
    j :: rest = rangeList j (specRunEnd j rest).1 ++ (specRunEnd j rest).2 := by
  intro rest
  induction rest with
  | nil =>
      intro j
      refine ⟨le_rfl, ?_⟩
      simp [specRunEnd, rangeList_single]
  | cons k rest ih =>
      intro j
      by_cases h : k = j + 1
      · obtain ⟨ih1, ih2⟩ := ih k
        have hse : specRunEnd j (k :: rest) = specRunEnd k rest := by
          simp only [specRunEnd]
          rw [if_pos h]
        rw [hse]
        refine ⟨by omega, ?_⟩
        rw [rangeList_cons (by omega), List.cons_append, ← h]
        exact congrArg (fun l => j :: l) ih2
      · have hse : specRunEnd j (k :: rest) = (j, k :: rest) := by
          simp only [specRunEnd]
          rw [if_neg h]
        rw [hse]
        refine ⟨le_rfl, ?_⟩
        rw [rangeList_single]
        rfl

theorem specRunEnd_gap : ∀ (rest : List Int) (j : Int),
    List.Chain' (fun x y => x < y) (j :: rest) →
    ∀ x ∈ (specRunEnd j rest).2, (specRunEnd j rest).1 + 1 < x := by
  intro rest
  induction rest with
  | nil => intro j _ x hx; simp [specRunEnd] at hx
  | cons k rest ih =>
      intro j hchain
      by_cases h : k = j + 1
      · have hse : specRunEnd j (k :: rest) = specRunEnd k rest := by
          simp only [specRunEnd]
          rw [if_pos h]
        rw [hse]
        exact ih k hchain.tail
      · have hse : specRunEnd j (k :: rest) = (j, k :: rest) := by
          simp only [specRunEnd]
          rw [if_neg h]
        rw [hse]
        intro x hx
        have hpw := List.chain'_iff_pairwise.mp hchain
        obtain ⟨hj, hpw2⟩ := List.pairwise_cons.mp hpw
        rcases List.mem_cons.mp hx with rfl | hx2
        · have := hj x (List.mem_cons_self _ _)
          omega
        · obtain ⟨hk2, _⟩ := List.pairwise_cons.mp hpw2
          have h1 : j < k := hj k (List.mem_cons_self _ _)
          have h2 : k < x := hk2 x hx2
          omega

theorem specRunEnd_chain {rest : List Int} {j : Int}
    (h : List.Chain' (fun x y => x < y) (j :: rest)) :
    List.Chain' (fun x y => x < y) (specRunEnd j rest).2 := by
  have hdec := (specRunEnd_decomp rest j).2
  have hsuf : (specRunEnd j rest).2 <:+ j :: rest :=
    ⟨rangeList j (specRunEnd j rest).1, hdec.symm⟩
  exact h.sublist hsuf.sublist

theorem specRuns_cover : ∀ (K : List Int),
    List.Chain' (fun x y => x < y) K →
    (specRuns K).flatMap (fun p => rangeList p.1 p.2) = K := by
  have key : ∀ (n : Nat) (K : List Int), K.length ≤ n →
      List.Chain' (fun x y => x < y) K →
      (specRuns K).flatMap (fun p => rangeList p.1 p.2) = K := by
    intro n
    induction n with
    | zero =>
        intro K hlen _
        have hK : K = [] := List.length_eq_zero.mp (Nat.le_zero.mp hlen)
        subst hK
        rfl
    | succ m ih =>
        intro K hlen hchain
        rcases K with _ | ⟨k, rest⟩
        · rfl
        · rw [specRuns_cons]
          simp only [List.flatMap_cons]
          have hlen2 := specRunEnd_length rest k
          simp only [List.length_cons] at hlen
          rw [ih _ (by omega) (specRunEnd_chain hchain)]
          exact ((specRunEnd_decomp rest k).2).symm
  exact fun K h => key K.length K le_rfl h

theorem specRuns_start_mem : ∀ (K : List Int), ∀ p ∈ specRuns K, p.1 ∈ K := by
  have key : ∀ (n : Nat) (K : List Int), K.length ≤ n →
      ∀ p ∈ specRuns K, p.1 ∈ K := by
    intro n
    induction n with
    | zero =>
        intro K hlen p hp
        have hK : K = [] := List.length_eq_zero.mp (Nat.le_zero.mp hlen)
        subst hK
        simp [specRuns_nil] at hp
    | succ m ih =>
        intro K hlen p hp
        rcases K with _ | ⟨k, rest⟩
        · simp [specRuns_nil] at hp
        · rw [specRuns_cons] at hp
          rcases List.mem_cons.mp hp with rfl | hp2
          · exact List.mem_cons_self _ _
          · have hlen2 := specRunEnd_length rest k
            simp only [List.length_cons] at hlen
            have := ih _ (by omega) p hp2
            have hdec := (specRunEnd_decomp rest k).2
            rw [hdec]
            exact List.mem_append_right _ this
  exact fun K => key K.length K le_rfl

theorem specRuns_le : ∀ (K : List Int), ∀ p ∈ specRuns K, p.1 ≤ p.2 := by
  have key : ∀ (n : Nat) (K : List Int), K.length ≤ n →
      ∀ p ∈ specRuns K, p.1 ≤ p.2 := by
    intro n
    induction n with
    | zero =>
        intro K hlen p hp
        have hK : K = [] := List.length_eq_zero.mp (Nat.le_zero.mp hlen)
        subst hK
        simp [specRuns_nil] at hp
    | succ m ih =>
        intro K hlen p hp
        rcases K with _ | ⟨k, rest⟩
        · simp [specRuns_nil] at hp
        · rw [specRuns_cons] at hp
          rcases List.mem_cons.mp hp with rfl | hp2
          · exact (specRunEnd_decomp rest k).1
          · have hlen2 := specRunEnd_length rest k
            simp only [List.length_cons] at hlen
            exact ih _ (by omega) p hp2
  exact fun K => key K.length K le_rfl

theorem specRuns_pairwise : ∀ (K : List Int),
    List.Chain' (fun x y => x < y) K →
    List.Pairwise (fun p q : Int × Int => p.2 + 1 < q.1) (specRuns K) := by
  have key : ∀ (n : Nat) (K : List Int), K.length ≤ n →
      List.Chain' (fun x y => x < y) K →
      List.Pairwise (fun p q : Int × Int => p.2 + 1 < q.1) (specRuns K) := by
    intro n
    induction n with
    | zero =>
        intro K hlen _
        have hK : K = [] := List.length_eq_zero.mp (Nat.le_zero.mp hlen)
        subst hK
        exact List.Pairwise.nil
    | succ m ih =>
        intro K hlen hchain
        rcases K with _ | ⟨k, rest⟩
        · exact List.Pairwise.nil
        · rw [specRuns_cons]
          have hlen2 := specRunEnd_length rest k
          simp only [List.length_cons] at hlen
          refine List.pairwise_cons.mpr ⟨?_, ih _ (by omega) (specRunEnd_chain hchain)⟩
          intro q hq
          have hq1 := specRuns_start_mem _ q hq
          exact specRunEnd_gap rest k hchain q.1 hq1
  exact fun K h => key K.length K le_rfl h

theorem specRuns_sorted {K : List Int}
    (hchain : List.Chain' (fun x y => x < y) K) :
    List.Sorted pairLe (specRuns K) := by
  have hg := specRuns_pairwise K hchain
  refine List.Pairwise.imp_of_mem ?_ hg
  intro p q hp _ hgap
  have hle := specRuns_le K p hp
  exact Or.inl (by omega)

/-! ### The counter representation -/

theorem toCounter_cons_nil {xs : List Int} (x : Int) (h : toCounter xs = []) :
    toCounter (x :: xs) = [(x, 1)] := by
  show (match toCounter xs with
    | [] => [(x, 1)]
    | (k, n) :: rest =>
        if k = x then (x, n + 1) :: rest else (x, 1) :: (k, n) :: rest) = _
  rw [h]

theorem toCounter_cons_cons {xs : List Int} {k n : Int} {rest : List (Int × Int)}
    (x : Int) (h : toCounter xs = (k, n) :: rest) :
    toCounter (x :: xs) =
      if k = x then (x, n + 1) :: rest else (x, 1) :: (k, n) :: rest := by
  show (match toCounter xs with
    | [] => [(x, 1)]
    | (k, n) :: rest =>
        if k = x then (x, n + 1) :: rest else (x, 1) :: (k, n) :: rest) = _
  rw [h]

theorem toCounter_keys_mem : ∀ (m : List Int), ∀ p ∈ toCounter m, p.1 ∈ m := by
  intro m
  induction m with
  | nil => simp [toCounter]
  | cons x xs ih =>
      intro p hp
      rcases hcx : toCounter xs with _ | ⟨⟨k, n⟩, rest⟩
      · rw [toCounter_cons_nil x hcx] at hp
        simp only [List.mem_singleton] at hp
        subst hp
        exact List.mem_cons_self _ _
      · rw [toCounter_cons_cons x hcx] at hp
        by_cases hkx : k = x
        · rw [if_pos hkx] at hp
          rcases List.mem_cons.mp hp with rfl | hp2
          · exact List.mem_cons_self _ _
          · have hmem : p ∈ toCounter xs := by
              rw [hcx]
              exact List.mem_cons_of_mem _ hp2
            exact List.mem_cons_of_mem _ (ih p hmem)
        · rw [if_neg hkx] at hp
          rcases List.mem_cons.mp hp with rfl | hp2
          · exact List.mem_cons_self _ _
          · have hmem : p ∈ toCounter xs := by
              rw [hcx]
              exact hp2
            exact List.mem_cons_of_mem _ (ih p hmem)

theorem toCounter_counts : ∀ (m : List Int), ∀ p ∈ toCounter m, 1 ≤ p.2 := by
  intro m
  induction m with
  | nil => simp [toCounter]
  | cons x xs ih =>
      intro p hp
      rcases hcx : toCounter xs with _ | ⟨⟨k, n⟩, rest⟩
      · rw [toCounter_cons_nil x hcx] at hp
        simp only [List.mem_singleton] at hp
        subst hp
        exact le_rfl
      · rw [toCounter_cons_cons x hcx] at hp
        have hkn : 1 ≤ n := by
          have hmem : (k, n) ∈ toCounter xs := by
            rw [hcx]
            exact List.mem_cons_self _ _
          exact ih (k, n) hmem
        by_cases hkx : k = x
        · rw [if_pos hkx] at hp
          rcases List.mem_cons.mp hp with rfl | hp2
          · simp only
            omega
          · have hmem : p ∈ toCounter xs := by
              rw [hcx]
              exact List.mem_cons_of_mem _ hp2
            exact ih p hmem
        · rw [if_neg hkx] at hp
          rcases List.mem_cons.mp hp with rfl | hp2
          · exact le_rfl
          · have hmem : p ∈ toCounter xs := by
              rw [hcx]
              exact hp2
            exact ih p hmem

theorem toCounter_keys_chain : ∀ (m : List Int), List.Sorted (· ≤ ·) m →
    List.Chain' (fun x y => x < y) ((toCounter m).map Prod.fst) := by
  intro m
  induction m with
  | nil => simp [toCounter]
  | cons x xs ih =>
      intro hsorted
      have hx : ∀ y ∈ xs, x ≤ y := (List.pairwise_cons.mp hsorted).1
      have htail := ih (List.pairwise_cons.mp hsorted).2
      rcases hcx : toCounter xs with _ | ⟨⟨k, n⟩, rest⟩
      · rw [toCounter_cons_nil x hcx]
        simp
      · rw [hcx] at htail
        rw [toCounter_cons_cons x hcx]
        by_cases hkx : k = x
        · rw [if_pos hkx]
          simp only [List.map_cons] at htail ⊢
          rw [← hkx]
          exact htail
        · rw [if_neg hkx]
          simp only [List.map_cons] at htail ⊢
          refine List.chain'_cons.mpr ⟨?_, htail⟩
          have hkxs : k ∈ xs := toCounter_keys_mem xs (k, n)
            (by rw [hcx]; exact List.mem_cons_self _ _)
          have := hx k hkxs
          omega

theorem toCounter_ones : ∀ (K : List Int),
    List.Chain' (fun x y => x < y) K →
    toCounter K = K.map (fun k => (k, (1 : Int))) := by
  intro K
  induction K with
  | nil => intro _; rfl
  | cons x xs ih =>
      intro hchain
      have htail := ih hchain.tail
      rcases xs with _ | ⟨y, ys⟩
      · rfl
      · have hxy : x < y := (List.chain'_cons.mp hchain).1
        simp only [List.map_cons] at htail
        rw [toCounter_cons_cons x htail, if_neg (by omega)]
        simp [List.map_cons]

theorem totalCount_ones (K : List Int) :
    totalCount (K.map (fun k => (k, (1 : Int)))) = K.length := by
  induction K with
  | nil => rfl
  | cons x xs ih =>
      simp only [totalCount, List.map_cons, List.sum_cons, List.length_cons]
      simp only [totalCount] at ih
      omega

theorem length_le_totalCount {c : List (Int × Int)}
    (h : ∀ p ∈ c, 1 ≤ p.2) : c.length ≤ totalCount c := by
  induction c with
  | nil => simp [totalCount]
  | cons p rest ih =>
      have h1 := h p (List.mem_cons_self _ _)
      have h2 := ih (fun q hq => h q (List.mem_cons_of_mem _ hq))
      simp only [totalCount, List.map_cons, List.sum_cons, List.length_cons]
      simp only [totalCount] at h2
      omega

theorem counterSubtract_covered {c : List (Int × Int)} {s j : Int}
    (hcov : ∀ x : Int, s ≤ x → x ≤ j → x ∈ c.map Prod.fst) :
    counterSubtract c s j =
      c.map (fun p => if s ≤ p.1 ∧ p.1 ≤ j then (p.1, p.2 - 1) else p) := by
  unfold counterSubtract
  have hmissing : ((rangeList s j).filter
      (fun k => c.all (fun p => p.1 ≠ k))) = [] := by
    rw [List.filter_eq_nil_iff]
    intro k hk
    have hks := mem_rangeList.mp hk
    obtain ⟨p, hp, hpk⟩ := List.mem_map.mp (hcov k hks.1 hks.2)
    simp only [List.all_eq_true, decide_eq_true_eq, not_forall]
    exact ⟨p, hp, by simp [hpk]⟩
  rw [hmissing]
  simp

theorem keepPositive_subtract_ones (K : List Int) (s j : Int) :
    keepPositive (counterSubtract (K.map (fun k => (k, (1 : Int)))) s j) =
      (K.filter (fun k => decide (¬ (s ≤ k ∧ k ≤ j)))).map
        (fun k => (k, (1 : Int))) := by
  unfold counterSubtract keepPositive
  rw [List.filter_append]
  have hmissing : List.filter (fun p => decide (0 < p.2))
      ((((rangeList s j).filter
        (fun k => (K.map (fun k => (k, (1:Int)))).all (fun p => p.1 ≠ k))).map
        (fun k => (k, (-1 : Int))))) = [] := by
    rw [List.filter_eq_nil_iff]
    intro p hp
    obtain ⟨k, _, rfl⟩ := List.mem_map.mp hp
    simp
  rw [hmissing, List.append_nil, List.map_map]
  have key : ∀ (L : List Int),
      List.filter (fun p => decide (0 < p.2))
        (L.map ((fun p => if s ≤ p.1 ∧ p.1 ≤ j then (p.1, p.2 - 1) else p) ∘
          (fun k => (k, (1:Int))))) =
      (L.filter (fun k => decide (¬ (s ≤ k ∧ k ≤ j)))).map
        (fun k => (k, (1:Int))) := by
    intro L
    induction L with
    | nil => rfl
    | cons x xs ih =>
        simp only [List.map_cons, List.filter_cons, Function.comp_apply]
        by_cases hx : s ≤ x ∧ x ≤ j
        · rw [if_pos hx]
          rw [if_neg (by simp), if_neg (by simp [hx])]
          exact ih
        · rw [if_neg hx]
          rw [if_pos (by simp), if_pos (by simp [hx])]
          simp only [List.map_cons]
          rw [ih]
  exact key K

/-! ### The `while c:` loop -/

theorem formatLoop_nil : ∀ (fuel : Nat) (it0 : Option Int)
    (acc : List (Int × Int)), formatLoop fuel [] it0 acc = acc := by
  intro fuel it0 acc
  cases fuel <;> rfl

theorem formatLoop_cons {c : List (Int × Int)} (hne : c ≠ [])
    (fuel : Nat) (it0 : Option Int) (acc : List (Int × Int)) :
    formatLoop (fuel + 1) c it0 acc =
      formatLoop fuel
        (keepPositive (counterSubtract c
          (((c.map Prod.fst).foldl passFold (none, it0)).1.getD 0)
          (((c.map Prod.fst).foldl passFold (none, it0)).2.getD 0)))
        ((c.map Prod.fst).foldl passFold (none, it0)).2
        (acc ++ [((((c.map Prod.fst).foldl passFold (none, it0)).1.getD 0),
          (((c.map Prod.fst).foldl passFold (none, it0)).2.getD 0))]) := by
  simp only [formatLoop]
  rw [if_neg hne]

theorem formatLoopState_nil : ∀ (fuel : Nat) (it0 : Option Int),
    formatLoopState fuel [] it0 = [] := by
  intro fuel it0
  cases fuel <;> rfl

theorem formatLoopState_cons {c : List (Int × Int)} (hne : c ≠ [])
    (fuel : Nat) (it0 : Option Int) :
    formatLoopState (fuel + 1) c it0 =
      formatLoopState fuel
        (keepPositive (counterSubtract c
          (((c.map Prod.fst).foldl passFold (none, it0)).1.getD 0)
          (((c.map Prod.fst).foldl passFold (none, it0)).2.getD 0)))
        ((c.map Prod.fst).foldl passFold (none, it0)).2 := by
  simp only [formatLoopState]
  rw [if_neg hne]

theorem totalCount_cons (p : Int × Int) (rest : List (Int × Int)) :
    totalCount (p :: rest) = p.2.toNat + totalCount rest := by
  simp [totalCount]

theorem keepPositive_cons (p : Int × Int) (rest : List (Int × Int)) :
    keepPositive (p :: rest) =
      if 0 < p.2 then p :: keepPositive rest else keepPositive rest := by
  by_cases h : 0 < p.2 <;> simp [keepPositive, List.filter_cons, h]

theorem totalCount_keepPositive_map_le (f : Int × Int → Int × Int)
    (hf : ∀ p, (f p).2 ≤ p.2) :
    ∀ c : List (Int × Int),
    totalCount (keepPositive (c.map f)) ≤ totalCount c := by
  intro c
  induction c with
  | nil => simp [keepPositive, totalCount]
  | cons p rest ih =>
      rw [List.map_cons, keepPositive_cons, totalCount_cons]
      by_cases h : 0 < (f p).2
      · rw [if_pos h, totalCount_cons]
        have := hf p
        omega
      · rw [if_neg h]
        omega

theorem totalCount_subtract_lt {s j : Int} (hs : s ≤ j) :
    ∀ (c : List (Int × Int)), (∀ p ∈ c, 1 ≤ p.2) → s ∈ c.map Prod.fst →
    totalCount (keepPositive
      (c.map (fun p => if s ≤ p.1 ∧ p.1 ≤ j then (p.1, p.2 - 1) else p))) <
      totalCount c := by
  intro c
  induction c with
  | nil => intro _ hmem; simp at hmem
  | cons p rest ih =>
      intro hcounts hmem
      have hp1 := hcounts p (List.mem_cons_self _ _)
      have hweak := totalCount_keepPositive_map_le
        (fun p => if s ≤ p.1 ∧ p.1 ≤ j then (p.1, p.2 - 1) else p)
        (fun q => by by_cases hq : s ≤ q.1 ∧ q.1 ≤ j <;> simp [hq]) rest
      rw [List.map_cons] at hmem
      rw [List.map_cons, keepPositive_cons, totalCount_cons]
      rcases List.mem_cons.mp hmem with hps | hmem2
      · -- the head entry holds the key `s` and is decremented
        have hin : s ≤ p.1 ∧ p.1 ≤ j := by omega
        rw [if_pos hin]
        by_cases hkeep : 0 < ((p.1, p.2 - 1) : Int × Int).2
        · rw [if_pos hkeep, totalCount_cons]
          simp only at hkeep ⊢
          omega
        · rw [if_neg hkeep]
          simp only at hkeep
          omega
      · -- the key `s` sits in the tail; the head only shrinks
        have hrec := ih (fun q hq => hcounts q (List.mem_cons_of_mem _ hq)) hmem2
        by_cases hq : s ≤ p.1 ∧ p.1 ≤ j
        · rw [if_pos hq]
          by_cases hkeep : 0 < ((p.1, p.2 - 1) : Int × Int).2
          · rw [if_pos hkeep, totalCount_cons]
            simp only at hkeep ⊢
            omega
          · rw [if_neg hkeep]
            simp only at hkeep
            omega
        · rw [if_neg hq]
          by_cases hkeep : 0 < p.2
          · rw [if_pos hkeep, totalCount_cons]
            omega
          · rw [if_neg hkeep]
            omega

theorem loop_step_facts {c : List (Int × Int)} (hne : c ≠ [])
    (hcounts : ∀ p ∈ c, 1 ≤ p.2)
    (hchain : List.Chain' (fun x y => x < y) (c.map Prod.fst))
    (it0 : Option Int) :
    ∃ s j : Int, (c.map Prod.fst).foldl passFold (none, it0) = (some s, some j) ∧
      (∀ p ∈ keepPositive (counterSubtract c s j), 1 ≤ p.2) ∧
      List.Chain' (fun x y => x < y)
        ((keepPositive (counterSubtract c s j)).map Prod.fst) ∧
      totalCount (keepPositive (counterSubtract c s j)) < totalCount c := by
  obtain ⟨s, j, hfold, hsj, hcov⟩ :=
    foldl_passFold_general (c.map Prod.fst) (by simpa using hne) it0
  have hsubst := counterSubtract_covered hcov
  refine ⟨s, j, hfold, ?_, ?_, ?_⟩
  · intro p hp
    have := List.of_mem_filter hp
    simp only [decide_eq_true_eq] at this
    omega
  · rw [hsubst]
    have hsub : List.Sublist
        (keepPositive (c.map (fun p =>
          if s ≤ p.1 ∧ p.1 ≤ j then (p.1, p.2 - 1) else p)))
        (c.map (fun p => if s ≤ p.1 ∧ p.1 ≤ j then (p.1, p.2 - 1) else p)) :=
      List.filter_sublist _
    have hmapsub := hsub.map Prod.fst
    have hkeys : (c.map (fun p =>
        if s ≤ p.1 ∧ p.1 ≤ j then (p.1, p.2 - 1) else p)).map Prod.fst =
        c.map Prod.fst := by
      rw [List.map_map]
      apply List.map_congr_left
      intro p _
      by_cases hq : s ≤ p.1 ∧ p.1 ≤ j <;> simp [hq]
    rw [hkeys] at hmapsub
    exact hchain.sublist hmapsub
  · rw [hsubst]
    exact totalCount_subtract_lt hsj c hcounts (hcov s le_rfl hsj)

theorem formatLoopState_empties :
    ∀ (fuel : Nat) (c : List (Int × Int)) (it0 : Option Int),
    (∀ p ∈ c, 1 ≤ p.2) →
    List.Chain' (fun x y => x < y) (c.map Prod.fst) →
    totalCount c ≤ fuel → formatLoopState fuel c it0 = [] := by
  intro fuel
  induction fuel with
  | zero =>
      intro c it0 hcounts _ hlen
      have h1 := length_le_totalCount hcounts
      have hc : c = [] := List.length_eq_zero.mp (by omega)
      subst hc
      rfl
  | succ f ih =>
      intro c it0 hcounts hchain hlen
      by_cases hc : c = []
      · subst hc
        rfl
      · obtain ⟨s, j, hfold, hc2, hch2, hdec⟩ :=
          loop_step_facts hc hcounts hchain it0
        rw [formatLoopState_cons hc, hfold]
        simp only [Option.getD_some]
        have hdec2 : totalCount (keepPositive (counterSubtract c s j)) ≤ f := by
          omega
        exact ih _ _ hc2 hch2 hdec2

theorem formatLoop_fuel :
    ∀ (fuel : Nat) (c : List (Int × Int)) (it0 : Option Int)
      (acc : List (Int × Int)),
    (∀ p ∈ c, 1 ≤ p.2) →
    List.Chain' (fun x y => x < y) (c.map Prod.fst) →
    totalCount c ≤ fuel → ∀ extra : Nat,
    formatLoop (fuel + extra) c it0 acc = formatLoop fuel c it0 acc := by
  intro fuel
  induction fuel with
  | zero =>
      intro c it0 acc hcounts _ hlen extra
      have h1 := length_le_totalCount hcounts
      have hc : c = [] := List.length_eq_zero.mp (by omega)
      subst hc
      rw [formatLoop_nil, formatLoop_nil]
  | succ f ih =>
      intro c it0 acc hcounts hchain hlen extra
      by_cases hc : c = []
      · subst hc
        rw [formatLoop_nil, formatLoop_nil]
      · obtain ⟨s, j, hfold, hc2, hch2, hdec⟩ :=
          loop_step_facts hc hcounts hchain it0
        have harith : f + 1 + extra = (f + extra) + 1 := by omega
        rw [harith, formatLoop_cons hc, formatLoop_cons hc]
        rw [hfold]
        simp only [Option.getD_some]
        exact ih _ _ _ hc2 hch2 (by omega) extra

/-- C9: `format_ranges` terminates on every finite input: starting from the
counter of any input list, the `while c:` loop empties the counter within
`totalCount` passes (first conjunct), so the fuelled loop used in the
definition computes the loop's true fixpoint — giving it any more fuel
changes nothing (second conjunct). -/
theorem C9_format_terminates : ∀ l : List Int,
    formatLoopState (totalCount (toCounter (sortInt l)))
      (toCounter (sortInt l)) none = [] ∧
    (∀ (extra : Nat) (acc : List (Int × Int)),
      formatLoop (totalCount (toCounter (sortInt l)) + extra)
        (toCounter (sortInt l)) none acc =
      formatLoop (totalCount (toCounter (sortInt l)))
        (toCounter (sortInt l)) none acc) := by
  intro l
  have hsorted : List.Sorted (fun a b : Int => a ≤ b) (sortInt l) :=
    List.sorted_insertionSort _ l
  have hcounts := toCounter_counts (sortInt l)
  have hchain := toCounter_keys_chain (sortInt l) hsorted
  exact ⟨formatLoopState_empties _ _ _ hcounts hchain le_rfl,
    fun extra acc => formatLoop_fuel _ _ _ _ hcounts hchain le_rfl extra⟩

/-! ### `format_ranges` on distinct inputs -/

theorem sortInt_sorted (l : List Int) :
    List.Sorted (fun a b : Int => a ≤ b) (sortInt l) :=
  List.sorted_insertionSort _ l

theorem sortInt_perm (l : List Int) : List.Perm (sortInt l) l :=
  List.perm_insertionSort _ l

theorem sortInt_chain {l : List Int} (h : l.Nodup) :
    List.Chain' (fun x y => x < y) (sortInt l) := by
  have hs := sortInt_sorted l
  have hn : (sortInt l).Nodup := (sortInt_perm l).nodup_iff.mpr h
  rw [List.chain'_iff_pairwise]
  exact (hs.and hn).imp (fun h => lt_of_le_of_ne h.1 h.2)

theorem formatLoop_ones_pos : ∀ (fuel : Nat) (K : List Int) (it0 : Option Int)
    (acc : List (Int × Int)),
    List.Chain' (fun x y => x < y) K → (∀ x ∈ K, 0 < x) → K.length ≤ fuel →
    formatLoop fuel (K.map (fun k => (k, (1 : Int)))) it0 acc =
      acc ++ specRuns K := by
  intro fuel
  induction fuel with
  | zero =>
      intro K it0 acc _ _ hlen
      have hK : K = [] := List.length_eq_zero.mp (Nat.le_zero.mp hlen)
      subst hK
      simp [formatLoop_nil, specRuns_nil]
  | succ f ih =>
      intro K it0 acc hchain hpos hlen
      rcases K with _ | ⟨k, rest⟩
      · simp [formatLoop_nil, specRuns_nil]
      · have hne : (k :: rest).map (fun k => (k, (1 : Int))) ≠ [] := by simp
        have hkeys : ((k :: rest).map (fun k => (k, (1 : Int)))).map Prod.fst
            = k :: rest := by
          rw [List.map_map]
          have hcomp : (Prod.fst ∘ fun k : Int => (k, (1 : Int))) = id := by
            funext x
            rfl
          rw [hcomp, List.map_id]
        have hk0 : k ≠ 0 := by
          have := hpos k (List.mem_cons_self _ _)
          omega
        have hst : (k :: rest).foldl passFold (none, it0) =
            (some k, some (specRunEnd k rest).1) := by
          rw [List.foldl_cons, passFold_none]
          exact foldl_passFold_run hk0 rest k hchain
        rw [formatLoop_cons hne, hkeys, hst]
        simp only [Option.getD_some]
        obtain ⟨hje, hdec⟩ := specRunEnd_decomp rest k
        rw [keepPositive_subtract_ones (k :: rest) k (specRunEnd k rest).1]
        have hfilter : (k :: rest).filter
            (fun x => decide (¬ (k ≤ x ∧ x ≤ (specRunEnd k rest).1))) =
            (specRunEnd k rest).2 := by
          conv_lhs => rw [hdec]
          rw [List.filter_append]
          have h1 : (rangeList k (specRunEnd k rest).1).filter
              (fun x => decide (¬ (k ≤ x ∧ x ≤ (specRunEnd k rest).1))) = [] := by
            rw [List.filter_eq_nil_iff]
            intro x hx
            have hm := mem_rangeList.mp hx
            simp only [decide_eq_true_eq, not_not]
            exact hm
          have h2 : (specRunEnd k rest).2.filter
              (fun x => decide (¬ (k ≤ x ∧ x ≤ (specRunEnd k rest).1))) =
              (specRunEnd k rest).2 := by
            rw [List.filter_eq_self]
            intro x hx
            have := specRunEnd_gap rest k hchain x hx
            simp only [decide_eq_true_eq]
            omega
          rw [h1, h2, List.nil_append]
        rw [hfilter]
        have hlenr := specRunEnd_length rest k
        have hrec := ih (specRunEnd k rest).2 (some (specRunEnd k rest).1)
          (acc ++ [(k, (specRunEnd k rest).1)])
          (specRunEnd_chain hchain)
          (fun x hx => hpos x (by rw [hdec]; exact List.mem_append_right _ hx))
          (by simp only [List.length_cons] at hlen; omega)
        rw [hrec, specRuns_cons]
        simp

theorem formatLoop_ones_zero : ∀ (fuel : Nat) (K : List Int) (it0 : Option Int)
    (acc : List (Int × Int)),
    List.Chain' (fun x y => x < y) (0 :: K) → K.length + 1 ≤ fuel →
    formatLoop fuel ((0 :: K).map (fun k => (k, (1 : Int)))) it0 acc =
      acc ++ specRuns K ++ [(0, 0)] := by
  intro fuel
  induction fuel with
  | zero =>
      intro K it0 acc _ hlen
      omega
  | succ f ih =>
      intro K it0 acc hchain hlen
      have hpos : ∀ x ∈ K, 0 < x := by
        intro x hx
        have hpw := List.chain'_iff_pairwise.mp hchain
        exact (List.pairwise_cons.mp hpw).1 x hx
      rcases K with _ | ⟨k, rest⟩
      · -- counter [(0,1)]: one pass emits the run (0,0)
        have hne : ([(0 : Int)]).map (fun k => (k, (1 : Int))) ≠ [] := by simp
        have hkeys : (([(0 : Int)]).map (fun k => (k, (1 : Int)))).map Prod.fst
            = [(0 : Int)] := by simp
        have hst : ([(0 : Int)]).foldl passFold (none, it0) =
            (some 0, some 0) := by
          rw [List.foldl_cons, passFold_none]
          rfl
        rw [formatLoop_cons hne, hkeys, hst]
        simp only [Option.getD_some]
        rw [keepPositive_subtract_ones [(0 : Int)] 0 0]
        have hfilter : ([(0 : Int)]).filter
            (fun x => decide (¬ ((0:Int) ≤ x ∧ x ≤ 0))) = [] := by
          simp
        rw [hfilter]
        simp [formatLoop_nil, specRuns_nil]
      · have hkpos : 0 < k := hpos k (List.mem_cons_self _ _)
        have hk0 : k ≠ 0 := by omega
        have hne : ((0 : Int) :: k :: rest).map (fun k => (k, (1 : Int))) ≠ [] := by
          simp
        have hkeys : (((0 : Int) :: k :: rest).map
            (fun k => (k, (1 : Int)))).map Prod.fst = (0 : Int) :: k :: rest := by
          rw [List.map_map]
          have hcomp : (Prod.fst ∘ fun k : Int => (k, (1 : Int))) = id := by
            funext x
            rfl
          rw [hcomp, List.map_id]
        have hst : ((0 : Int) :: k :: rest).foldl passFold (none, it0) =
            (some k, some (specRunEnd k rest).1) := by
          rw [List.foldl_cons, passFold_none, List.foldl_cons, passFold_zero]
          exact foldl_passFold_run hk0 rest k hchain.tail
        rw [formatLoop_cons hne, hkeys, hst]
        simp only [Option.getD_some]
        obtain ⟨hje, hdec⟩ := specRunEnd_decomp rest k
        rw [keepPositive_subtract_ones ((0 : Int) :: k :: rest) k
          (specRunEnd k rest).1]
        have hfilter : ((0 : Int) :: k :: rest).filter
            (fun x => decide (¬ (k ≤ x ∧ x ≤ (specRunEnd k rest).1))) =
            (0 : Int) :: (specRunEnd k rest).2 := by
          rw [List.filter_cons]
          rw [if_pos (by simp only [decide_eq_true_eq]; omega)]
          congr 1
          conv_lhs => rw [hdec]
          rw [List.filter_append]
          have h1 : (rangeList k (specRunEnd k rest).1).filter
              (fun x => decide (¬ (k ≤ x ∧ x ≤ (specRunEnd k rest).1))) = [] := by
            rw [List.filter_eq_nil_iff]
            intro x hx
            have hm := mem_rangeList.mp hx
            simp only [decide_eq_true_eq, not_not]
            exact hm
          have h2 : (specRunEnd k rest).2.filter
              (fun x => decide (¬ (k ≤ x ∧ x ≤ (specRunEnd k rest).1))) =
              (specRunEnd k rest).2 := by
            rw [List.filter_eq_self]
            intro x hx
            have := specRunEnd_gap rest k hchain.tail x hx
            simp only [decide_eq_true_eq]
            omega
          rw [h1, h2, List.nil_append]
        rw [hfilter]
        have hlenr := specRunEnd_length rest k
        have hchain2 : List.Chain' (fun x y => x < y)
            ((0 : Int) :: (specRunEnd k rest).2) := by
          rw [List.chain'_iff_pairwise] at hchain ⊢
          refine List.pairwise_cons.mpr ⟨?_, ?_⟩
          · intro x hx
            have hxm : x ∈ k :: rest := by
              rw [hdec]
              exact List.mem_append_right _ hx
            exact (List.pairwise_cons.mp hchain).1 x hxm
          · rw [← List.chain'_iff_pairwise]
            exact specRunEnd_chain (by
              rw [List.chain'_iff_pairwise]
              exact (List.pairwise_cons.mp hchain).2)
        have hrec := ih (specRunEnd k rest).2 (some (specRunEnd k rest).1)
          (acc ++ [(k, (specRunEnd k rest).1)]) hchain2
          (by simp only [List.length_cons] at hlen; omega)
        rw [hrec, specRuns_cons]
        simp

/-! ### `format_ranges` as a whole, and the round trip -/

theorem sortPairs_of_sorted {rs : List (Int × Int)}
    (h : List.Sorted pairLe rs) : sortPairs rs = rs :=
  List.Sorted.insertionSort_eq h

theorem sortPairs_append_zero {K' : List Int}
    (hchain' : List.Chain' (fun x y => x < y) K')
    (hpos : ∀ x ∈ K', 0 < x) :
    sortPairs (specRuns K' ++ [(0, 0)]) = (0, 0) :: specRuns K' := by
  have hsorted2 : List.Sorted pairLe ((0, 0) :: specRuns K') := by
    refine List.pairwise_cons.mpr ⟨?_, specRuns_sorted hchain'⟩
    intro q hq
    have hmem := specRuns_start_mem K' q hq
    have := hpos q.1 hmem
    exact Or.inl (by simpa using this)
  have hperm : List.Perm (sortPairs (specRuns K' ++ [(0, 0)]))
      ((0, 0) :: specRuns K') :=
    (List.perm_insertionSort pairLe _).trans (List.perm_append_singleton _ _)
  exact List.eq_of_perm_of_sorted hperm
    (List.sorted_insertionSort pairLe _) hsorted2

theorem format_ranges_distinct_pos {l : List Int} (hnd : l.Nodup)
    (hpos : ∀ x ∈ l, 0 < x) :
    format_ranges l = pyJoin ',' ((specRuns (sortInt l)).map renderRun) := by
  have hchain := sortInt_chain hnd
  have hposK : ∀ x ∈ sortInt l, 0 < x := fun x hx =>
    hpos x ((sortInt_perm l).mem_iff.mp hx)
  show pyJoin ','
    ((sortPairs (formatLoop (totalCount (toCounter (sortInt l)))
      (toCounter (sortInt l)) none [])).map renderRun) = _
  rw [toCounter_ones _ hchain, totalCount_ones,
    formatLoop_ones_pos _ _ _ _ hchain hposK le_rfl]
  simp only [List.nil_append]
  rw [sortPairs_of_sorted (specRuns_sorted hchain)]

theorem chain_zero_head {K : List Int}
    (hchain : List.Chain' (fun x y => x < y) K)
    (hnn : ∀ x ∈ K, 0 ≤ x) (h0 : (0 : Int) ∈ K) : ∃ K', K = 0 :: K' := by
  rcases K with _ | ⟨k, K'⟩
  · simp at h0
  · rcases List.mem_cons.mp h0 with h | h
    · exact ⟨K', by rw [← h]⟩
    · have hpw := List.chain'_iff_pairwise.mp hchain
      have hk0 : k < 0 := (List.pairwise_cons.mp hpw).1 0 h
      have := hnn k (List.mem_cons_self _ _)
      omega

theorem format_ranges_zero {l : List Int} {K' : List Int} (hnd : l.Nodup)
    (hK : sortInt l = 0 :: K') :
    format_ranges l = pyJoin ',' (((0, 0) :: specRuns K').map renderRun) := by
  have hchain := sortInt_chain hnd
  rw [hK] at hchain
  have hpos : ∀ x ∈ K', 0 < x := fun x hx =>
    (List.pairwise_cons.mp (List.chain'_iff_pairwise.mp hchain)).1 x hx
  show pyJoin ','
    ((sortPairs (formatLoop (totalCount (toCounter (sortInt l)))
      (toCounter (sortInt l)) none [])).map renderRun) = _
  rw [hK, toCounter_ones _ hchain, totalCount_ones, List.length_cons,
    formatLoop_ones_zero (K'.length + 1) K' none [] hchain le_rfl]
  simp only [List.nil_append]
  have htail : List.Chain' (fun x y => x < y) K' := hchain.tail
  rw [sortPairs_append_zero htail hpos]

theorem parse_ranges_runs (runs : List (Int × Int)) (hne : runs ≠ [])
    (hok : ∀ p ∈ runs, 0 ≤ p.1 ∧ p.1 ≤ p.2) :
    parse_ranges (pyJoin ',' (runs.map renderRun)) =
      (runs.flatMap (fun p => rangeList p.1 p.2), false) := by
  have hmap : runs.map renderRun = (runs.map runTok).map renderTok := by
    rw [List.map_map]
    apply List.map_congr_left
    intro p _
    simp only [Function.comp_apply]
    unfold runTok renderRun
    by_cases h : p.1 = p.2
    · simp [h, renderTok]
    · simp [h, renderTok]
  rw [hmap]
  rw [parse_wellFormed_core (runs.map runTok)
    (by simpa using hne)
    (by
      intro t ht
      obtain ⟨p, hp, rfl⟩ := List.mem_map.mp ht
      obtain ⟨h1, h2⟩ := hok p hp
      unfold runTok
      by_cases h : p.1 = p.2
      · simp only [if_pos h, wfTok, decide_eq_true_eq]
        omega
      · simp only [if_neg h, wfTok, Bool.and_eq_true, decide_eq_true_eq]
        omega)]
  congr 1
  rw [flatMap_of_map]
  apply flatMapCongr
  intro p hp
  obtain ⟨h1, h2⟩ := hok p hp
  unfold runTok
  by_cases h : p.1 = p.2
  · simp only [if_pos h, expandTok]
    rw [← h, ← rangeList_single]
  · simp [h, expandTok]

/-- C2 (amended): for a duplicate-free input of positive integers,
`format_ranges` produces the canonical run-length string: the comma-join
of the renderings of the maximal consecutive runs of the sorted values
(`renderRun` renders a singleton run as `n` and a longer one as
`start-end`); the runs cover exactly the sorted input values, each has
`start ≤ end`, consecutive runs are separated by a gap of at least one
(so they are non-overlapping, maximal, and sorted ascending by start);
and the empty input yields the empty string.  As stated in the spec the
claim is false: duplicates are not collapsed and a run through `0` is
split (see the counterexample). -/
theorem C2_format_canonical : ∀ l : List Int, l.Nodup → (∀ x ∈ l, 0 < x) →
    format_ranges l = pyJoin ',' ((specRuns (sortInt l)).map renderRun) ∧
    ((specRuns (sortInt l)).flatMap (fun p => rangeList p.1 p.2) = sortInt l ∧
      List.Perm (sortInt l) l) ∧
    (∀ p ∈ specRuns (sortInt l), p.1 ≤ p.2) ∧
    List.Pairwise (fun p q : Int × Int => p.2 + 1 < q.1)
      (specRuns (sortInt l)) ∧
    format_ranges [] = [] := by
  intro l hnd hpos
  have hchain := sortInt_chain hnd
  exact ⟨format_ranges_distinct_pos hnd hpos,
    ⟨specRuns_cover _ hchain, sortInt_perm l⟩,
    specRuns_le _, specRuns_pairwise _ hchain, rfl⟩

/-- C2 witness: the spec's own example input. -/
theorem C2_format_canonical_witness :
    ([1, 2, 3, 5, 7, 8, 9] : List Int).Nodup ∧
    (∀ x ∈ ([1, 2, 3, 5, 7, 8, 9] : List Int), 0 < x) ∧
    format_ranges [1, 2, 3, 5, 7, 8, 9] = "1-3,5,7-9".toList := by
  refine ⟨by decide, by decide, ?_⟩
  have h := (C2_format_canonical [1, 2, 3, 5, 7, 8, 9]
    (by decide) (by decide)).1
  rw [h]
  decide

/-- C2 counterexample: duplicates are not collapsed (`[1,1]` renders as
`"1,1"`, not `"1"`), and a maximal run through `0` is split (`[0,1]`
renders as `"0,1"`, not `"0-1"`) — the Python `if not start:` test treats
the value `0` like `None`. -/
theorem C2_format_counterexample :
    format_ranges [1, 1] = "1,1".toList ∧
    format_ranges [1, 1] ≠ "1".toList ∧
    format_ranges [0, 1] = "0,1".toList ∧
    format_ranges [0, 1] ≠ "0-1".toList :=
  ⟨by decide, by decide, by decide, by decide⟩

/-- C1 (amended): for every finite *nonempty* set of non-negative integers
— modelled as a duplicate-free list, in any order — parsing the formatted
string yields exactly the sorted values with no error; in particular the
set of integers yielded equals the input set.  The empty set fails the
round trip (see the counterexample). -/
theorem C1_round_trip : ∀ l : List Int, l.Nodup → (∀ x ∈ l, 0 ≤ x) →
    l ≠ [] →
    parse_ranges (format_ranges l) = (sortInt l, false) ∧
    (∀ x : Int, x ∈ sortInt l ↔ x ∈ l) := by
  intro l hnd hnn hne
  have hperm := sortInt_perm l
  have hchain := sortInt_chain hnd
  have hKnn : ∀ x ∈ sortInt l, 0 ≤ x := fun x hx => hnn x (hperm.mem_iff.mp hx)
  have hKne : sortInt l ≠ [] := by
    intro h
    exact hne ((h ▸ hperm).symm.eq_nil)
  refine ⟨?_, fun x => hperm.mem_iff⟩
  by_cases h0 : (0 : Int) ∈ sortInt l
  · obtain ⟨K', hK⟩ := chain_zero_head hchain hKnn h0
    have hchain0 : List.Chain' (fun x y => x < y) (0 :: K') := hK ▸ hchain
    have hpos' : ∀ x ∈ K', 0 < x := fun x hx =>
      (List.pairwise_cons.mp (List.chain'_iff_pairwise.mp hchain0)).1 x hx
    rw [format_ranges_zero hnd hK]
    rw [parse_ranges_runs ((0, 0) :: specRuns K') (by simp)
      (by
        intro p hp
        rcases List.mem_cons.mp hp with rfl | hp2
        · exact ⟨le_rfl, le_rfl⟩
        · have h1 := specRuns_start_mem K' p hp2
          exact ⟨le_of_lt (hpos' _ h1), specRuns_le K' p hp2⟩)]
    rw [hK]
    congr 1
    rw [List.flatMap_cons, specRuns_cover K' hchain0.tail]
    simp [rangeList_single]
  · have hpos : ∀ x ∈ sortInt l, 0 < x := by
      intro x hx
      have hx0 := hKnn x hx
      rcases eq_or_lt_of_le hx0 with he | hl
      · exact absurd (he ▸ hx) h0
      · exact hl
    have hposl : ∀ x ∈ l, 0 < x := fun x hx => hpos x (hperm.mem_iff.mpr hx)
    rw [format_ranges_distinct_pos hnd hposl]
    have hrne : specRuns (sortInt l) ≠ [] := by
      rcases hKl : sortInt l with _ | ⟨k, rest⟩
      · exact absurd hKl hKne
      · rw [specRuns_cons]
        simp
    rw [parse_ranges_runs _ hrne
      (fun p hp => ⟨le_of_lt (hpos _ (specRuns_start_mem _ p hp)),
        specRuns_le _ p hp⟩)]
    congr 1
    exact specRuns_cover _ hchain

/-- C1 witness: the set `{0, 2, 3}` (including the edge value `0`)
round-trips. -/
theorem C1_round_trip_witness :
    (([0, 2, 3] : List Int).Nodup ∧
      (∀ x ∈ ([0, 2, 3] : List Int), 0 ≤ x) ∧
      ([0, 2, 3] : List Int) ≠ []) ∧
    parse_ranges (format_ranges [0, 2, 3]) = ([0, 2, 3], false) := by
  refine ⟨⟨by decide, by decide, by decide⟩, ?_⟩
  have h := (C1_round_trip [0, 2, 3] (by decide) (by decide) (by decide)).1
  rw [h]
  decide

/-- C1 counterexample: the empty set does not round-trip — formatting the
empty collection gives the empty string and `parse_ranges("")` raises
(Python `int('')` fails) instead of yielding an empty set. -/
theorem C1_round_trip_counterexample :
    parse_ranges (format_ranges ([] : List Int)) = ([], true) := by decide

/-! ### `add`: zipping and summing -/

theorem except_ok_bind {α β ε : Type} (a : α) (f : α → Except ε β) :
    (Except.ok a >>= f) = f a := rfl

theorem except_error_bind {α β ε : Type} (e : ε) (f : α → Except ε β) :
    ((Except.error e : Except ε α) >>= f) = Except.error e := rfl

theorem range_map_get (l : List α) :
    (List.range l.length).map (fun i => l.get? i) = l.map some := by
  induction l with
  | nil => rfl
  | cons a xs ih =>
      rw [List.length_cons, List.range_succ_eq_map, List.map_cons, List.map_cons]
      congr 1
      rw [List.map_map]
      rw [show ((fun i => (a :: xs).get? i) ∘ Nat.succ) =
        (fun i => xs.get? i) from funext (fun i => rfl)]
      exact ih

theorem zipLongest_singleton (l : List α) :
    zipLongest [l] = l.map (fun a => [some a]) := by
  unfold zipLongest
  have hm : maxLen [l] = l.length := by simp [maxLen]
  rw [hm]
  have hsplit : (fun i => ([l]).map (fun m => m.get? i)) =
      (fun i => [l.get? i]) := funext (fun i => rfl)
  rw [hsplit]
  rw [show (fun i => [l.get? i]) =
    ((fun o => [o]) ∘ (fun i => l.get? i)) from funext (fun i => rfl)]
  rw [← List.map_map, range_map_get, List.map_map]
  exact List.map_congr_left (fun a _ => rfl)

theorem maxLen_pair_cons (a b : α) (l₁ l₂ : List α) :
    maxLen [a :: l₁, b :: l₂] = maxLen [l₁, l₂] + 1 := by
  simp only [maxLen, List.foldr_cons, List.foldr_nil, List.length_cons]
  omega

theorem zipLongest_pair_cons (a b : α) (l₁ l₂ : List α) :
    zipLongest [a :: l₁, b :: l₂] = [some a, some b] :: zipLongest [l₁, l₂] := by
  unfold zipLongest
  rw [maxLen_pair_cons, List.range_succ_eq_map, List.map_cons, List.map_map]
  congr 1

theorem zipLongest_pair_nil_left (b : α) (l₂ : List α) :
    ∃ t, zipLongest [[], b :: l₂] = [none, some b] :: t := by
  unfold zipLongest
  have hm : maxLen [([] : List α), b :: l₂] = l₂.length + 1 := by
    simp [maxLen]
  rw [hm, List.range_succ_eq_map, List.map_cons]
  exact ⟨_, rfl⟩

theorem zipLongest_pair_nil_right (a : α) (l₁ : List α) :
    ∃ t, zipLongest [a :: l₁, []] = [some a, none] :: t := by
  unfold zipLongest
  have hm : maxLen [a :: l₁, ([] : List α)] = l₁.length + 1 := by
    simp [maxLen]
  rw [hm, List.range_succ_eq_map, List.map_cons]
  exact ⟨_, rfl⟩

theorem sumCells_single (x : Int) : sumCells [PyObj.num x] = Except.ok x := by
  show Except.ok (0 + x) = _
  rw [zero_add]

theorem sumCells_pair (x y : Int) :
    sumCells [PyObj.num x, PyObj.num y] = Except.ok (x + y) := by
  show Except.ok (0 + x + y) = _
  rw [zero_add]

theorem addRow_hasNone {zipped : List (Option PyObj)}
    (h : zipped.any (fun o => o.isNone) = true) :
    addRow zipped = Except.error PyErr.valueError := by
  unfold addRow
  rw [if_pos h]

theorem addRow_allLists {zipped : List (Option PyObj)}
    {rows : List (List PyObj)}
    (hnone : zipped.any (fun o => o.isNone) = false)
    (hal : allLists zipped.reduceOption = some rows) :
    addRow zipped = (zipLongest rows).foldlM
      (fun inp items =>
        if items.any (fun o => o.isNone) then Except.error PyErr.valueError
        else (sumCells items.reduceOption).map (fun s => inp ++ [s])) [] := by
  unfold addRow
  rw [if_neg (by simp [hnone]), hal]

theorem addRow_single (r : List Int) :
    addRow [some (PyObj.list (r.map PyObj.num))] = Except.ok r := by
  rw [@addRow_allLists [some (PyObj.list (r.map PyObj.num))] [r.map PyObj.num]
    (by simp) rfl, zipLongest_singleton, List.map_map]
  rw [show ((fun a => [some a]) ∘ PyObj.num) =
    (fun c : Int => [some (PyObj.num c)]) from funext (fun c => rfl)]
  have key : ∀ (cells : List Int) (acc : List Int),
      ((cells.map (fun c => [some (PyObj.num c)])).foldlM
        (fun inp items =>
          if items.any (fun o => o.isNone) then Except.error PyErr.valueError
          else (sumCells items.reduceOption).map (fun s => inp ++ [s]))
        acc) = Except.ok (acc ++ cells) := by
    intro cells
    induction cells with
    | nil =>
        intro acc
        simp only [List.map_nil, List.foldlM_nil, List.append_nil]
        rfl
    | cons c rest ih =>
        intro acc
        rw [List.map_cons, List.foldlM_cons]
        have hstep : (if ([some (PyObj.num c)]).any (fun o => o.isNone) then
            Except.error PyErr.valueError
          else (sumCells ([some (PyObj.num c)] :
            List (Option PyObj)).reduceOption).map (fun s => acc ++ [s])) =
            Except.ok (acc ++ [c]) := by
          rw [if_neg (by simp)]
          rw [show ([some (PyObj.num c)] :
              List (Option PyObj)).reduceOption = [PyObj.num c] from by
            simp [List.reduceOption]]
          rw [sumCells_single]
          rfl
        rw [hstep, except_ok_bind, ih]
        simp
  exact key r []

theorem addRow_pair (ra rb : List Int) (hlen : ra.length = rb.length) :
    addRow [some (PyObj.list (ra.map PyObj.num)),
            some (PyObj.list (rb.map PyObj.num))] =
      Except.ok (List.zipWith (fun a b => a + b) ra rb) := by
  rw [@addRow_allLists [some (PyObj.list (ra.map PyObj.num)),
    some (PyObj.list (rb.map PyObj.num))]
    [ra.map PyObj.num, rb.map PyObj.num] (by simp) rfl]
  have key : ∀ (qa qb : List Int), qa.length = qb.length → ∀ (acc : List Int),
      ((zipLongest [qa.map PyObj.num, qb.map PyObj.num]).foldlM
        (fun inp items =>
          if items.any (fun o => o.isNone) then Except.error PyErr.valueError
          else (sumCells items.reduceOption).map (fun s => inp ++ [s]))
        acc) = Except.ok (acc ++ List.zipWith (fun a b => a + b) qa qb) := by
    intro qa
    induction qa with
    | nil =>
        intro qb hl acc
        have hqb : qb = [] := List.length_eq_zero.mp (by simpa using hl.symm)
        subst hqb
        simp only [List.map_nil, zipLongest, maxLen, List.foldr_nil,
          List.foldr_cons, List.length_nil, List.range_zero, List.map_nil,
          List.foldlM_nil, List.zipWith_nil_right, List.append_nil]
        rfl
    | cons a qas ih =>
        intro qb hl acc
        rcases qb with _ | ⟨b, qbs⟩
        · simp at hl
        · rw [List.map_cons, List.map_cons, zipLongest_pair_cons,
            List.foldlM_cons]
          have hstep : (if ([some (PyObj.num a), some (PyObj.num b)]).any
              (fun o => o.isNone) then Except.error PyErr.valueError
            else (sumCells ([some (PyObj.num a), some (PyObj.num b)] :
              List (Option PyObj)).reduceOption).map (fun s => acc ++ [s])) =
              Except.ok (acc ++ [a + b]) := by
            rw [if_neg (by simp)]
            rw [show ([some (PyObj.num a), some (PyObj.num b)] :
                List (Option PyObj)).reduceOption =
                [PyObj.num a, PyObj.num b] from by simp [List.reduceOption]]
            rw [sumCells_pair]
            rfl
          rw [hstep, except_ok_bind, ih qbs (by simpa using hl)]
          simp
  exact key ra rb hlen []

theorem addRow_pair_mismatch : ∀ (ra rb : List Int), ra.length ≠ rb.length →
    addRow [some (PyObj.list (ra.map PyObj.num)),
            some (PyObj.list (rb.map PyObj.num))] =
      Except.error PyErr.valueError := by
  intro ra rb hlen
  rw [@addRow_allLists [some (PyObj.list (ra.map PyObj.num)),
    some (PyObj.list (rb.map PyObj.num))]
    [ra.map PyObj.num, rb.map PyObj.num] (by simp) rfl]
  have key : ∀ (qa qb : List Int), qa.length ≠ qb.length → ∀ (acc : List Int),
      ((zipLongest [qa.map PyObj.num, qb.map PyObj.num]).foldlM
        (fun inp items =>
          if items.any (fun o => o.isNone) then Except.error PyErr.valueError
          else (sumCells items.reduceOption).map (fun s => inp ++ [s]))
        acc) = Except.error PyErr.valueError := by
    intro qa
    induction qa with
    | nil =>
        intro qb hl acc
        rcases qb with _ | ⟨b, qbs⟩
        · simp at hl
        · obtain ⟨t, ht⟩ := zipLongest_pair_nil_left (PyObj.num b)
            (qbs.map PyObj.num)
          rw [List.map_cons, List.map_nil] at *
          rw [ht, List.foldlM_cons]
          rw [if_pos (by simp)]
          rw [except_error_bind]
    | cons a qas ih =>
        intro qb hl acc
        rcases qb with _ | ⟨b, qbs⟩
        · obtain ⟨t, ht⟩ := zipLongest_pair_nil_right (PyObj.num a)
            (qas.map PyObj.num)
          rw [List.map_cons, List.map_nil] at *
          rw [ht, List.foldlM_cons]
          rw [if_pos (by simp)]
          rw [except_error_bind]
        · rw [List.map_cons, List.map_cons, zipLongest_pair_cons,
            List.foldlM_cons]
          have hstep : (if ([some (PyObj.num a), some (PyObj.num b)]).any
              (fun o => o.isNone) then Except.error PyErr.valueError
            else (sumCells ([some (PyObj.num a), some (PyObj.num b)] :
              List (Option PyObj)).reduceOption).map (fun s => acc ++ [s])) =
              Except.ok (acc ++ [a + b]) := by
            rw [if_neg (by simp)]
            rw [show ([some (PyObj.num a), some (PyObj.num b)] :
                List (Option PyObj)).reduceOption =
                [PyObj.num a, PyObj.num b] from by simp [List.reduceOption]]
            rw [sumCells_pair]
            rfl
          rw [hstep, except_ok_bind, ih qbs (by simpa using hl)]
  exact key ra rb hlen []

/-! ### `add`: the matrix cases and the claim theorems -/

theorem except_map_ok {α β ε : Type} (f : α → β) (a : α) :
    Except.map f (Except.ok a : Except ε α) = Except.ok (f a) := rfl

theorem except_map_error {α β ε : Type} (f : α → β) (e : ε) :
    Except.map f (Except.error e : Except ε α) = Except.error e := rfl

theorem add_allLists {args : List PyObj} {ls : List (List PyObj)}
    (hal : allLists args = some ls) :
    add args = (zipLongest ls).foldlM
      (fun response zipped =>
        (addRow zipped).map (fun inp => response ++ [inp])) [] := by
  unfold add
  rw [hal]

/-- C3 (amended): `add` computes the elementwise sum for arguments that are
two matrices of numbers of identical shape (equally many rows, rows
pairwise equally long) — but only at exactly this nesting depth: the
spec's claimed recursion over arbitrary depth does not exist in the code,
and flat lists (`add([1,2],[3,4])`) or mixed nesting
(`add([1,[2,3]],[4,[5,6]])`) raise `TypeError` (see the counterexample). -/
theorem C3_add_matrices : ∀ (A B : List (List Int)),
    A.length = B.length →
    List.Forall₂ (fun r s : List Int => r.length = s.length) A B →
    add [matOf A, matOf B] =
      Except.ok (List.zipWith (List.zipWith (fun a b => a + b)) A B) := by
  have key : ∀ (A B : List (List Int)) (acc : List (List Int)),
      A.length = B.length →
      List.Forall₂ (fun r s : List Int => r.length = s.length) A B →
      ((zipLongest [A.map (fun r => PyObj.list (r.map PyObj.num)),
          B.map (fun r => PyObj.list (r.map PyObj.num))]).foldlM
        (fun response zipped =>
          (addRow zipped).map (fun inp => response ++ [inp])) acc) =
        Except.ok (acc ++ List.zipWith (List.zipWith (fun a b => a + b)) A B) := by
    intro A
    induction A with
    | nil =>
        intro B acc hlen _
        have hB : B = [] := List.length_eq_zero.mp (by simpa using hlen.symm)
        subst hB
        simp only [List.map_nil, List.zipWith_nil_left, List.append_nil]
        rw [show zipLongest ([[], []] : List (List PyObj)) = [] from rfl,
          List.foldlM_nil]
        rfl
    | cons r A' ih =>
        intro B acc hlen hrows
        rcases B with _ | ⟨t, B'⟩
        · simp at hlen
        · have hrt : r.length = t.length := by
            cases hrows with
            | cons h3 h4 => exact h3
          have hrows' : List.Forall₂ (fun r s : List Int => r.length = s.length)
              A' B' := by
            cases hrows with
            | cons h3 h4 => exact h4
          rw [List.map_cons, List.map_cons, zipLongest_pair_cons,
            List.foldlM_cons, addRow_pair r t hrt, except_map_ok,
            except_ok_bind, ih B' _ (by simpa using hlen) hrows']
          simp [List.zipWith_cons_cons]
  intro A B hlen hrows
  rw [add_allLists (show allLists [matOf A, matOf B] =
    some [A.map (fun r => PyObj.list (r.map PyObj.num)),
      B.map (fun r => PyObj.list (r.map PyObj.num))] from rfl)]
  exact key A B [] hlen hrows

/-- C3 witness: the spec's concrete matrix scenario. -/
theorem C3_add_matrices_witness :
    (([[1, 2], [3, 4]] : List (List Int)).length =
      ([[5, 6], [7, 8]] : List (List Int)).length ∧
      List.Forall₂ (fun r s : List Int => r.length = s.length)
        [[1, 2], [3, 4]] [[5, 6], [7, 8]]) ∧
    add [matOf [[1, 2], [3, 4]], matOf [[5, 6], [7, 8]]] =
      Except.ok [[6, 8], [10, 12]] := by
  have hf : List.Forall₂ (fun r s : List Int => r.length = s.length)
      [[1, 2], [3, 4]] [[5, 6], [7, 8]] :=
    List.Forall₂.cons rfl (List.Forall₂.cons rfl List.Forall₂.nil)
  refine ⟨⟨rfl, hf⟩, ?_⟩
  have h := C3_add_matrices [[1, 2], [3, 4]] [[5, 6], [7, 8]] rfl hf
  rw [show List.zipWith (List.zipWith (fun a b : Int => a + b))
    [[1, 2], [3, 4]] [[5, 6], [7, 8]] = [[6, 8], [10, 12]] from rfl] at h
  exact h

/-- C3 counterexample: the claim's flat and mixed-nesting examples raise
`TypeError` instead of returning `[4,6]` / `[5,[7,9]]`: `zip_longest` (and
`sum`) choke on the depth the claimed recursion would have handled. -/
theorem C3_add_counterexample :
    add [PyObj.list [PyObj.num 1, PyObj.num 2],
         PyObj.list [PyObj.num 3, PyObj.num 4]] =
      Except.error PyErr.typeError ∧
    add [PyObj.list [PyObj.num 1, PyObj.list [PyObj.num 2, PyObj.num 3]],
         PyObj.list [PyObj.num 4, PyObj.list [PyObj.num 5, PyObj.num 6]]] =
      Except.error PyErr.typeError :=
  ⟨rfl, rfl⟩

/-- C6 (amended): for matrix arguments (lists of rows of numbers), any
shape mismatch — unequal row counts or unequal row lengths — raises
`ValueError` (the spec's `ShapeMismatchError`), with no partial sum.  But
the claim's own flat example `add([1,2],[3])` raises `TypeError`, not
`ShapeMismatchError` (see the counterexample): at depths the zip does not
handle, mixing and mismatches surface as `TypeError` first. -/
theorem C6_add_shape_mismatch : ∀ (A B : List (List Int)),
    ¬ (A.length = B.length ∧
      List.Forall₂ (fun r s : List Int => r.length = s.length) A B) →
    add [matOf A, matOf B] = Except.error PyErr.valueError := by
  have key : ∀ (A B : List (List Int)) (acc : List (List Int)),
      ¬ (A.length = B.length ∧
        List.Forall₂ (fun r s : List Int => r.length = s.length) A B) →
      ((zipLongest [A.map (fun r => PyObj.list (r.map PyObj.num)),
          B.map (fun r => PyObj.list (r.map PyObj.num))]).foldlM
        (fun response zipped =>
          (addRow zipped).map (fun inp => response ++ [inp])) acc) =
        Except.error PyErr.valueError := by
    intro A
    induction A with
    | nil =>
        intro B acc hbad
        rcases B with _ | ⟨t, B'⟩
        · exact absurd ⟨rfl, List.Forall₂.nil⟩ hbad
        · rw [List.map_nil, List.map_cons]
          obtain ⟨tl, htl⟩ := zipLongest_pair_nil_left
            (PyObj.list (t.map PyObj.num)) (B'.map (fun r => PyObj.list (r.map PyObj.num)))
          rw [htl, List.foldlM_cons, addRow_hasNone (by simp),
            except_map_error, except_error_bind]
    | cons r A' ih =>
        intro B acc hbad
        rcases B with _ | ⟨t, B'⟩
        · rw [List.map_cons, List.map_nil]
          obtain ⟨tl, htl⟩ := zipLongest_pair_nil_right
            (PyObj.list (r.map PyObj.num)) (A'.map (fun r => PyObj.list (r.map PyObj.num)))
          rw [htl, List.foldlM_cons, addRow_hasNone (by simp),
            except_map_error, except_error_bind]
        · rw [List.map_cons, List.map_cons, zipLongest_pair_cons,
            List.foldlM_cons]
          by_cases hrt : r.length = t.length
          · rw [addRow_pair r t hrt, except_map_ok, except_ok_bind]
            apply ih B' _
            rintro ⟨h1, h2⟩
            exact hbad ⟨by simp [h1], List.Forall₂.cons hrt h2⟩
          · rw [addRow_pair_mismatch r t hrt, except_map_error,
              except_error_bind]
  intro A B hbad
  rw [add_allLists (show allLists [matOf A, matOf B] =
    some [A.map (fun r => PyObj.list (r.map PyObj.num)),
      B.map (fun r => PyObj.list (r.map PyObj.num))] from rfl)]
  exact key A B [] hbad

/-- C6 witness: matrices `[[1,2]]` and `[[3]]` — mismatched row lengths —
raise `ValueError` with no partial sum. -/
theorem C6_add_shape_mismatch_witness :
    (¬ (([[1, 2]] : List (List Int)).length =
        ([[3]] : List (List Int)).length ∧
      List.Forall₂ (fun r s : List Int => r.length = s.length)
        [[1, 2]] [[3]])) ∧
    add [matOf [[1, 2]], matOf [[3]]] = Except.error PyErr.valueError := by
  have hbad : ¬ (([[1, 2]] : List (List Int)).length =
      ([[3]] : List (List Int)).length ∧
      List.Forall₂ (fun r s : List Int => r.length = s.length)
        [[1, 2]] [[3]]) := by
    rintro ⟨h1, h2⟩
    cases h2 with
    | cons h3 h4 => simp at h3
  exact ⟨hbad, C6_add_shape_mismatch [[1, 2]] [[3]] hbad⟩

/-- C6 counterexample: the claim's own example `add([1,2],[3])` raises
`TypeError` (from the inner `zip_longest` over integers), not the claimed
`ShapeMismatchError` (`ValueError`). -/
theorem C6_add_mismatch_counterexample :
    add [PyObj.list [PyObj.num 1, PyObj.num 2], PyObj.list [PyObj.num 3]] =
      Except.error PyErr.typeError ∧
    PyErr.typeError ≠ PyErr.valueError :=
  ⟨rfl, by decide⟩

/-- C7 (amended): the sum of a single argument is that argument — but only
for arguments that are matrices (lists of rows of numbers, of any, even
ragged, shape): `add(x) == x` then.  A bare number or a flat list of
numbers raises `TypeError` instead of being returned (see the
counterexample). -/
theorem C7_add_identity : ∀ A : List (List Int),
    add [matOf A] = Except.ok A := by
  have key : ∀ (rows : List (List Int)) (acc : List (List Int)),
      ((rows.map (fun r => [some (PyObj.list (r.map PyObj.num))])).foldlM
        (fun response zipped =>
          (addRow zipped).map (fun inp => response ++ [inp])) acc) =
        Except.ok (acc ++ rows) := by
    intro rows
    induction rows with
    | nil =>
        intro acc
        simp only [List.map_nil, List.foldlM_nil, List.append_nil]
        rfl
    | cons r rest ih =>
        intro acc
        rw [List.map_cons, List.foldlM_cons, addRow_single, except_map_ok,
          except_ok_bind, ih]
        simp
  intro A
  rw [add_allLists (show allLists [matOf A] =
    some [A.map (fun r => PyObj.list (r.map PyObj.num))] from rfl)]
  rw [zipLongest_singleton, List.map_map]
  rw [show ((fun a => [some a]) ∘ (fun r : List Int =>
      PyObj.list (r.map PyObj.num))) =
    (fun r : List Int => [some (PyObj.list (r.map PyObj.num))]) from
    funext (fun r => rfl)]
  exact key A []

/-- C7 counterexample: a bare number and a flat list of numbers are both
"single nested numeric structures" in the claim's sense, yet `add` raises
`TypeError` on them instead of returning them. -/
theorem C7_add_identity_counterexample :
    add [PyObj.num 5] = Except.error PyErr.typeError ∧
    add [PyObj.list [PyObj.num 1, PyObj.num 2]] =
      Except.error PyErr.typeError :=
  ⟨rfl, rfl⟩

/-! ### `deep_flatten` -/

theorem deep_flatten_eq_specLeaves :
    ∀ v : FObj, isStrF v = false → deep_flatten v = specLeaves v := by
  have key : ∀ (n : Nat) (v : FObj), sizeOf v ≤ n → isStrF v = false →
      deep_flatten v = specLeaves v := by
    intro n
    induction n with
    | zero =>
        intro v hsize _
        exfalso
        cases v <;> simp at hsize
    | succ m ih =>
        intro v hsize hstr
        cases v with
        | num k => simp [deep_flatten, specLeaves]
        | str s => simp [isStrF] at hstr
        | list items =>
            simp only [deep_flatten, specLeaves]
            apply flatMapCongr
            intro x _
            by_cases hstr2 : isStrF x.1
            · rw [if_pos hstr2]
              rcases hxv : x.1 with k | s2 | its <;> rw [hxv] at hstr2 <;>
                simp [isStrF] at hstr2
              simp [specLeaves]
            · rw [if_neg hstr2]
              have hsz := List.sizeOf_lt_of_mem x.2
              apply ih x.1 ?_ (by simpa using hstr2)
              have hls : sizeOf (FObj.list items) = 1 + sizeOf items := by
                simp [FObj.list.sizeOf_spec]
              omega
  exact fun v => key (sizeOf v) v le_rfl

/-- C4 (amended): strings and non-iterables are leaves *as elements*: a
string met while iterating a list is yielded whole, and a non-iterable
value (a number) is a leaf — `deep_flatten(5)` yields `[5]` and no input
raises.  But a *top-level* string argument is not yielded whole: it is
itself iterated, yielding its characters as one-character strings (see the
counterexample).  For every non-string argument, `deep_flatten` agrees
with the spec's leaf semantics (`specLeaves`). -/
theorem C4_deep_flatten_leaves :
    (∀ v : FObj, isStrF v = false → deep_flatten v = specLeaves v) ∧
    deep_flatten (FObj.num 5) = [FObj.num 5] ∧
    (∀ s : List Char,
      deep_flatten (FObj.str s) = s.map (fun c => FObj.str [c])) := by
  refine ⟨deep_flatten_eq_specLeaves, by simp [deep_flatten], ?_⟩
  intro s
  simp [deep_flatten]

/-- C4 witness: a nested list containing a number, a string and a list —
the code and the spec's leaf semantics agree on it. -/
theorem C4_deep_flatten_leaves_witness :
    isStrF (FObj.list [FObj.num 1, FObj.str ['h', 'i'],
      FObj.list [FObj.num 2]]) = false ∧
    deep_flatten (FObj.list [FObj.num 1, FObj.str ['h', 'i'],
      FObj.list [FObj.num 2]]) =
      specLeaves (FObj.list [FObj.num 1, FObj.str ['h', 'i'],
        FObj.list [FObj.num 2]]) :=
  ⟨rfl, C4_deep_flatten_leaves.1 _ rfl⟩

/-- C4 counterexample: a top-level string is decomposed into its
characters, not yielded whole. -/
theorem C4_deep_flatten_counterexample :
    deep_flatten (FObj.str ['a', 'b']) = [FObj.str ['a'], FObj.str ['b']] ∧
    [FObj.str ['a'], FObj.str ['b']] ≠ [FObj.str ['a', 'b']] := by
  constructor
  · simp [deep_flatten]
  · simp

end Morsels
